import Mathlib

/-!
Verification of the ddmerge diff-and-reconciliation core.

Texts are modelled as lists of characters.  The line-splitting model follows
Rust's `str::lines` (used by `extract_hunks` and `apply_hunk_choices` in
`src/diff/hunk.rs`): a text is split after every newline character, the final
fragment may lack a newline, and each fragment is then stripped of its
trailing newline and of a carriage return immediately preceding it.
-/

namespace Ddmerge

/-- Split a character list after every newline, keeping the terminators
(the tokenisation underlying Rust's `str::lines`). -/
def splitInclusive : List Char → List (List Char)
  | [] => []
  | c :: rest =>
    if c = '\n' then ['\n'] :: splitInclusive rest
    else
      match splitInclusive rest with
      | [] => [[c]]
      | g :: gs => (c :: g) :: gs

/-- Strip one trailing newline from a fragment, and, when a newline was
stripped, also one trailing carriage return (Rust's per-line map inside
`str::lines`). -/
def linesMap (l : List Char) : List Char :=
  if l.getLast? = some '\n' then
    if l.dropLast.getLast? = some '\r' then l.dropLast.dropLast else l.dropLast
  else l

/-- The list of lines of a text, as Rust's `content.lines().collect()`. -/
def rustLines (t : List Char) : List (List Char) :=
  (splitInclusive t).map linesMap

/-- Rust's `content.ends_with('\n')`. -/
def endsWithNewline (t : List Char) : Bool :=
  t.getLast? == some '\n'

/-- Holds when the text never contains a carriage return immediately
followed by a newline. -/
def noCRLF : List Char → Bool
  | [] => true
  | c :: rest => !(c == '\r' && rest.head? == some '\n') && noCRLF rest

/-- The function `format_line_with_newline` from `src/diff/hunk.rs`: append the newline
back to a split line, except for the final line of a source text whose raw
bytes lacked a trailing newline. -/
def format_line_with_newline (line : List Char) (index total_lines : Nat)
    (content_ends_with_newline : Bool) : List Char :=
  let is_last_line := index == total_lines - 1
  if is_last_line && !content_ends_with_newline then line
  else line ++ ['\n']

/-- Concatenate the lines starting at index `i` out of `total`, each rendered
by `format_line_with_newline`. -/
def renderFrom (e : Bool) (total : Nat) : Nat → List (List Char) → List Char
  | _, [] => []
  | i, l :: ls => format_line_with_newline l i total e ++ renderFrom e total (i + 1) ls

/-- Split a text into lines and concatenate them back, each line rendered
with `format_line_with_newline` (the trailing-newline rule). -/
def renderLines (t : List Char) : List Char :=
  renderFrom (endsWithNewline t) (rustLines t).length 0 (rustLines t)

/-! ### Basic facts about the splitting -/

theorem splitInclusive_eq_nil : ∀ {t : List Char}, splitInclusive t = [] → t = [] := by
  intro t h
  cases t with
  | nil => rfl
  | cons c rest =>
    by_cases hc : c = '\n'
    · simp [splitInclusive, hc] at h
    · simp only [splitInclusive, if_neg hc] at h
      cases hsp : splitInclusive rest with
      | nil => rw [hsp] at h; simp at h
      | cons g gs => rw [hsp] at h; simp at h

theorem join_splitInclusive : ∀ (t : List Char), (splitInclusive t).flatten = t := by
  intro t
  induction t with
  | nil => simp [splitInclusive]
  | cons c rest ih =>
    by_cases hc : c = '\n'
    · simp [splitInclusive, hc, ih]
    · simp only [splitInclusive, if_neg hc]
      cases hsp : splitInclusive rest with
      | nil =>
        have : rest = [] := splitInclusive_eq_nil hsp
        simp [this]
      | cons g gs =>
        rw [hsp] at ih
        simp only [List.flatten]
        rw [← ih]
        simp [List.flatten]

theorem mem_splitInclusive_ne_nil :
    ∀ {t : List Char} {p : List Char}, p ∈ splitInclusive t → p ≠ [] := by
  intro t
  induction t with
  | nil => intro p hp; simp [splitInclusive] at hp
  | cons c rest ih =>
    intro p hp
    by_cases hc : c = '\n'
    · simp [splitInclusive, hc] at hp
      rcases hp with h | h
      · simp [h]
      · exact ih h
    · simp only [splitInclusive, if_neg hc] at hp
      cases hsp : splitInclusive rest with
      | nil => rw [hsp] at hp; simp at hp; simp [hp]
      | cons g gs =>
        rw [hsp] at hp
        simp at hp
        rcases hp with h | h
        · simp [h]
        · exact ih (by rw [hsp]; exact List.mem_cons_of_mem _ h)

theorem noCRLF_tail {c : Char} {rest : List Char} (h : noCRLF (c :: rest) = true) :
    noCRLF rest = true := by
  simp [noCRLF, Bool.and_eq_true] at h
  exact h.2

theorem getLast?_cons_ne {α : Type} (c : α) {g : List α} (hg : g ≠ []) :
    (c :: g).getLast? = g.getLast? := by
  cases g with
  | nil => exact absurd rfl hg
  | cons a as => exact List.getLast?_cons_cons

theorem endsWithNewline_cons {c : Char} {rest : List Char} (h : rest ≠ []) :
    endsWithNewline (c :: rest) = endsWithNewline rest := by
  unfold endsWithNewline
  rw [getLast?_cons_ne c h]

theorem format_cons (c : Char) (x : List Char) (i tot : Nat) (e : Bool) :
    format_line_with_newline (c :: x) i tot e = c :: format_line_with_newline x i tot e := by
  unfold format_line_with_newline
  by_cases h : (i == tot - 1) && !e
  · simp [h]
  · simp [h]

theorem linesMap_cons {c : Char} {g : List Char} (hg : g ≠ [])
    (hbad : ¬(c = '\r' ∧ g = ['\n'])) :
    linesMap (c :: g) = c :: linesMap g := by
  unfold linesMap
  rw [getLast?_cons_ne c hg]
  by_cases hnl : g.getLast? = some '\n'
  · simp only [if_pos hnl]
    have hdl : (c :: g).dropLast = c :: g.dropLast := by
      cases g with
      | nil => exact absurd rfl hg
      | cons a as => cases as <;> rfl
    rw [hdl]
    by_cases hdg : g.dropLast = []
    · have hg1 : g = ['\n'] := by
        cases g with
        | nil => exact absurd rfl hg
        | cons a as =>
          cases as with
          | nil =>
            simp at hnl
            rw [hnl]
          | cons b bs => simp at hdg
      have hcr : c ≠ '\r' := fun hcc => hbad ⟨hcc, hg1⟩
      rw [hdg]
      simp [hcr]
    · rw [getLast?_cons_ne c hdg]
      by_cases hr : g.dropLast.getLast? = some '\r'
      · simp only [if_pos hr]
        cases hdgl : g.dropLast with
        | nil => exact absurd hdgl hdg
        | cons a as => exact List.dropLast_cons₂
      · simp only [if_neg hr]
  · simp only [if_neg hnl]

theorem renderFrom_shift (e : Bool) :
    ∀ (L : List (List Char)) (i total : Nat), 1 ≤ total →
      renderFrom e (total + 1) (i + 1) L = renderFrom e total i L := by
  intro L
  induction L with
  | nil => intro i total _; rfl
  | cons l ls ih =>
    intro i total htot
    simp only [renderFrom]
    have hfmt : format_line_with_newline l (i + 1) (total + 1) e =
        format_line_with_newline l i total e := by
      unfold format_line_with_newline
      have : ((i + 1 : Nat) == (total + 1) - 1) = ((i : Nat) == total - 1) := by
        simp only [Nat.add_sub_cancel]
        rcases Nat.exists_eq_add_of_le htot with ⟨k, hk⟩
        subst hk
        simp only [Nat.add_comm 1 k, Nat.add_sub_cancel]
        by_cases h : i = k
        · simp [h]
        · simp [h, fun hh => h (Nat.succ_injective hh)]
      simp only [this]
    rw [hfmt, ih i.succ total htot]

theorem renderFrom_cons (e : Bool) (n i : Nat) (x : List Char) (L : List (List Char)) :
    renderFrom e n i (x :: L) =
      format_line_with_newline x i n e ++ renderFrom e n (i + 1) L := rfl

theorem rustLines_nl (rest : List Char) :
    rustLines ('\n' :: rest) = [] :: rustLines rest := by
  unfold rustLines
  simp [splitInclusive, linesMap]

theorem rustLines_ne_nil {t : List Char} (h : t ≠ []) : rustLines t ≠ [] := by
  unfold rustLines
  intro hr
  simp at hr
  exact h (splitInclusive_eq_nil hr)

/-- Splitting under the trailing-newline rule and rejoining reproduces any
CRLF-free text exactly. -/
theorem renderLines_eq (t : List Char) (h : noCRLF t = true) : renderLines t = t := by
  induction t with
  | nil => rfl
  | cons c rest ih =>
    by_cases hc : c = '\n'
    · subst hc
      cases hrest : rest with
      | nil => rfl
      | cons r rs =>
        rw [← hrest]
        have hrne : rest ≠ [] := by rw [hrest]; simp
        have hlen : 1 ≤ (rustLines rest).length :=
          List.length_pos.mpr (rustLines_ne_nil hrne)
        have ih' := ih (noCRLF_tail h)
        unfold renderLines at ih' ⊢
        rw [rustLines_nl, endsWithNewline_cons hrne]
        simp only [List.length_cons, renderFrom_cons]
        have hfmt : format_line_with_newline [] 0 ((rustLines rest).length + 1)
            (endsWithNewline rest) = ['\n'] := by
          have h0 : ((0 : Nat) == (rustLines rest).length) = false := by
            rw [beq_eq_false_iff_ne]
            omega
          simp [format_line_with_newline, h0]
        rw [hfmt, renderFrom_shift _ _ 0 _ hlen, ih']
        rfl
    · have hrestC : noCRLF rest = true := noCRLF_tail h
      cases hsp : splitInclusive rest with
      | nil =>
        have hrnil : rest = [] := splitInclusive_eq_nil hsp
        subst hrnil
        have hsplit : splitInclusive [c] = [[c]] := by
          simp [splitInclusive, hc]
        have hlm : linesMap [c] = [c] := by
          unfold linesMap
          simp [hc]
        have he : endsWithNewline [c] = false := by
          unfold endsWithNewline
          simp [hc]
        unfold renderLines rustLines
        rw [hsplit]
        simp only [List.map_cons, List.map_nil, hlm, he]
        simp [renderFrom, format_line_with_newline]
      | cons g gs =>
        have hrne : rest ≠ [] := by
          intro hre; rw [hre] at hsp; simp [splitInclusive] at hsp
        have hsplit : splitInclusive (c :: rest) = (c :: g) :: gs := by
          simp only [splitInclusive, if_neg hc]
          rw [hsp]
        have hgne : g ≠ [] :=
          mem_splitInclusive_ne_nil (by rw [hsp]; exact List.mem_cons_self _ _)
        have hbad : ¬(c = '\r' ∧ g = ['\n']) := by
          rintro ⟨hcr, hgn⟩
          have hflat : rest = '\n' :: gs.flatten := by
            have := join_splitInclusive rest
            rw [hsp, hgn] at this
            simpa using this.symm
          rw [hcr, hflat] at h
          simp [noCRLF] at h
        have hlm := linesMap_cons hgne hbad
        have h1 : rustLines (c :: rest) = (c :: linesMap g) :: gs.map linesMap := by
          unfold rustLines
          rw [hsplit]
          simp only [List.map_cons, hlm]
        have h2 : rustLines rest = linesMap g :: gs.map linesMap := by
          unfold rustLines
          rw [hsp]
          simp only [List.map_cons]
        have ih' := ih hrestC
        unfold renderLines at ih' ⊢
        rw [h1, endsWithNewline_cons hrne, h2] at *
        simp only [List.length_cons, renderFrom_cons] at ih' ⊢
        rw [format_cons]
        simp only [List.cons_append]
        rw [ih']

/-! ### Hunk extraction and choice-driven reconciliation (`src/diff/hunk.rs`) -/

/-- A single hunk (contiguous block of changes). -/
structure Hunk where
  left_start : Nat
  left_count : Nat
  right_start : Nat
  right_count : Nat
  left_lines : List (List Char)
  right_lines : List (List Char)
  context_before : List (List Char)
  context_after : List (List Char)
deriving DecidableEq

/-- Choice for a hunk. -/
inductive HunkChoice
  | left
  | right
  | skip
deriving DecidableEq

/-- One edit operation of the external alignment engine (`similar::DiffOp`),
over 0-based line indices. -/
inductive DiffOp
  | equal (old_index new_index len : Nat)
  | delete (old_index old_len new_index : Nat)
  | insert (old_index new_index new_len : Nat)
  | replace (old_index old_len new_index new_len : Nat)
deriving DecidableEq

/-- Bounds-guarded loop `for i in start..start+len { if i < lines.len() { push format(lines[i]) } }`. -/
def collectFormatted (linesVec : List (List Char)) (e : Bool) (start len : Nat) :
    List (List Char) :=
  (List.range' start len).filterMap fun i =>
    (linesVec.get? i).map fun s => format_line_with_newline s i linesVec.length e

/-- The hunk produced for one edit operation by `extract_hunks`
(`Equal` produces none). -/
def hunkOfOp (leftL rightL : List (List Char)) (le re : Bool) (ctx : Nat) :
    DiffOp → Option Hunk
  | .equal _ _ _ => none
  | .delete oi olen ni => some {
      left_start := oi, left_count := olen, right_start := ni, right_count := 0,
      left_lines := collectFormatted leftL le oi olen,
      right_lines := [],
      context_before := collectFormatted leftL le (oi - ctx) (oi - (oi - ctx)),
      context_after := collectFormatted leftL le (oi + olen)
        (min (oi + olen + ctx) leftL.length - (oi + olen)) }
  | .insert oi ni nlen => some {
      left_start := oi, left_count := 0, right_start := ni, right_count := nlen,
      left_lines := [],
      right_lines := collectFormatted rightL re ni nlen,
      context_before := collectFormatted leftL le (oi - ctx) (oi - (oi - ctx)),
      context_after := collectFormatted leftL le oi (min (oi + ctx) leftL.length - oi) }
  | .replace oi olen ni nlen => some {
      left_start := oi, left_count := olen, right_start := ni, right_count := nlen,
      left_lines := collectFormatted leftL le oi olen,
      right_lines := collectFormatted rightL re ni nlen,
      context_before := collectFormatted leftL le (oi - ctx) (oi - (oi - ctx)),
      context_after := collectFormatted leftL le (oi + olen)
        (min (oi + olen + ctx) leftL.length - (oi + olen)) }

/-- The function `extract_hunks`: one hunk per non-`Equal` operation, in operation order.
The edit-operation sequence is the input supplied by the external alignment
engine. -/
def extract_hunks (left_content right_content : List Char) (context_lines : Nat)
    (ops : List DiffOp) : List Hunk :=
  ops.filterMap (hunkOfOp (rustLines left_content) (rustLines right_content)
    (endsWithNewline left_content) (endsWithNewline right_content) context_lines)

/-- Rust's `choices.get(hunk_idx).copied().unwrap_or(HunkChoice::Skip)`. -/
def chooseAt (choices : List HunkChoice) (i : Nat) : HunkChoice :=
  (choices.get? i).getD .skip

/-- Bounds-guarded loop `for i in start..start+len { if i < lines.len() { push lines[i] } }`. -/
def collectPlain (linesVec : List (List Char)) (start len : Nat) : List (List Char) :=
  (List.range' start len).filterMap fun i => linesVec.get? i

/-- The line-merging pass of `apply_hunk_choices`: walk the operations,
consuming one choice per non-`Equal` operation, building the two output
line buffers. -/
def processOps (leftL rightL : List (List Char)) (choices : List HunkChoice) :
    List DiffOp → Nat → List (List Char) × List (List Char)
  | [], _ => ([], [])
  | op :: rest, hunkIdx =>
    match op with
    | .equal oi _ len =>
      let seg := collectPlain leftL oi len
      let p := processOps leftL rightL choices rest hunkIdx
      (seg ++ p.1, seg ++ p.2)
    | .delete oi olen _ =>
      let p := processOps leftL rightL choices rest (hunkIdx + 1)
      match chooseAt choices hunkIdx with
      | .left => (collectPlain leftL oi olen ++ p.1, collectPlain leftL oi olen ++ p.2)
      | .skip => (collectPlain leftL oi olen ++ p.1, p.2)
      | .right => p
    | .insert _ ni nlen =>
      let p := processOps leftL rightL choices rest (hunkIdx + 1)
      match chooseAt choices hunkIdx with
      | .right => (collectPlain rightL ni nlen ++ p.1, collectPlain rightL ni nlen ++ p.2)
      | .skip => (p.1, collectPlain rightL ni nlen ++ p.2)
      | .left => p
    | .replace oi olen ni nlen =>
      let p := processOps leftL rightL choices rest (hunkIdx + 1)
      match chooseAt choices hunkIdx with
      | .left => (collectPlain leftL oi olen ++ p.1, collectPlain leftL oi olen ++ p.2)
      | .skip => (collectPlain leftL oi olen ++ p.1, collectPlain rightL ni nlen ++ p.2)
      | .right => (collectPlain rightL ni nlen ++ p.1, collectPlain rightL ni nlen ++ p.2)

/-- Rust's `choices.iter().rev().find(|c| **c != HunkChoice::Skip)`. -/
def lastNonSkip (choices : List HunkChoice) : Option HunkChoice :=
  choices.reverse.find? fun c => decide (c ≠ HunkChoice.skip)

/-- Join buffered lines with a single newline separator. -/
def joinNL (ls : List (List Char)) : List Char :=
  List.intercalate ['\n'] ls

/-- Join the buffered lines and append one trailing newline when the resolved
flag is set and the joined content is non-empty. -/
def finalizeMerged (buf : List (List Char)) (trailing : Bool) : List Char :=
  let merged := joinNL buf
  if trailing && !merged.isEmpty then merged ++ ['\n'] else merged

/-- The function `apply_hunk_choices` from `src/diff/hunk.rs`.  The `hunks` argument is
unused, exactly as in the source. -/
def apply_hunk_choices (left_content right_content : List Char)
    (hunks : List Hunk) (ops : List DiffOp) (choices : List HunkChoice) :
    List Char × List Char :=
  let _ := hunks
  let p := processOps (rustLines left_content) (rustLines right_content) choices ops 0
  let left_has_newline := endsWithNewline left_content
  let right_has_newline := endsWithNewline right_content
  let tr := match lastNonSkip choices with
    | some .left => (left_has_newline, left_has_newline)
    | some .right => (right_has_newline, right_has_newline)
    | _ => (left_has_newline, right_has_newline)
  (finalizeMerged p.1 tr.1, finalizeMerged p.2 tr.2)

/-- Holds for the operations that produce a hunk and consume a choice. -/
def isChangeOp : DiffOp → Bool
  | .equal _ _ _ => false
  | _ => true

/-- Number of non-`Equal` operations. -/
def countChangeOps (ops : List DiffOp) : Nat :=
  (ops.filter isChangeOp).length

/-- Modelled from the spec: the external alignment engine's contract (§3):
operations are contiguous, non-overlapping, ordered, and jointly cover both
full line ranges.  `validFrom lineL lineR pl pr ops` checks the tail `ops`
starting at line positions `pl`/`pr`. -/
def validFrom (lineL lineR : Nat) : Nat → Nat → List DiffOp → Bool
  | pl, pr, [] => pl == lineL && pr == lineR
  | pl, pr, op :: rest =>
    match op with
    | .equal oi ni len => oi == pl && ni == pr && validFrom lineL lineR (pl + len) (pr + len) rest
    | .delete oi olen ni => oi == pl && ni == pr && validFrom lineL lineR (pl + olen) pr rest
    | .insert oi ni nlen => oi == pl && ni == pr && validFrom lineL lineR pl (pr + nlen) rest
    | .replace oi olen ni nlen =>
        oi == pl && ni == pr && validFrom lineL lineR (pl + olen) (pr + nlen) rest

/-- Modelled from the spec: an engine-supplied operation sequence for the two
texts is contiguous, ordered and covers both full line ranges. -/
def ValidOps (l r : List Char) (ops : List DiffOp) : Bool :=
  validFrom (rustLines l).length (rustLines r).length 0 0 ops

/-- Modelled from the spec: an `Equal` operation denotes spans whose line
tokens (lines with their terminators) coincide on the two sides. -/
def equalsSound (l r : List Char) (ops : List DiffOp) : Bool :=
  ops.all fun op =>
    match op with
    | .equal oi ni len =>
        (List.range len).all fun k =>
          (splitInclusive l).get? (oi + k) == (splitInclusive r).get? (ni + k)
    | _ => true

/-! ### Directory comparison (`src/diff/directory.rs`)

A filesystem tree is modelled as the list of entries its recursive walk
yields: each entry is a relative path (list of components), a directory
flag, and (for files) the file's byte content. -/

/-- One walkable filesystem entry. -/
structure FsEntry where
  path : List String
  isDir : Bool
  content : List Char
deriving DecidableEq

/-- A directory tree, as the collection of entries under its root. -/
structure FsTree where
  entries : List FsEntry
deriving DecidableEq

/-- Strict lexicographic comparison of character lists (byte order of the
underlying strings). -/
def charListLt : List Char → List Char → Bool
  | [], [] => false
  | [], _ :: _ => true
  | _ :: _, [] => false
  | a :: as, b :: bs => if a < b then true else if b < a then false else charListLt as bs

/-- Strict comparison of path components. -/
def strLt (a b : String) : Bool :=
  charListLt a.toList b.toList

/-- Strict lexicographic comparison of relative paths, component-wise
(the order of Rust's `PathBuf`, hence of `BTreeSet<PathBuf>`). -/
def pathLt : List String → List String → Bool
  | [], [] => false
  | [], _ :: _ => true
  | _ :: _, [] => false
  | a :: as, b :: bs => if a = b then pathLt as bs else strLt a b

/-- Ordered duplicate-free insertion (the effect of `BTreeSet::insert`). -/
def insertPath (p : List String) : List (List String) → List (List String)
  | [] => [p]
  | q :: qs =>
    if p = q then q :: qs
    else if pathLt p q then p :: q :: qs
    else q :: insertPath p qs

/-- The sorted duplicate-free list holding the given paths (a `BTreeSet`). -/
def sortedDedup (xs : List (List String)) : List (List String) :=
  xs.foldr insertPath []

/-- The function `collect_paths`: every relative path under the root, as a sorted set. -/
def collect_paths (t : FsTree) : List (List String) :=
  sortedDedup (t.entries.map (·.path))

/-- Whether the tree has an entry at the relative path (`Path::exists`). -/
def existsIn (t : FsTree) (p : List String) : Bool :=
  t.entries.any fun e => decide (e.path = p)

/-- Whether the entry at the path is a directory (`Path::is_dir`; `false`
when the path does not exist). -/
def isDirAt (t : FsTree) (p : List String) : Bool :=
  ((t.entries.find? fun e => decide (e.path = p)).map (·.isDir)).getD false

/-- Byte content of the file at the path. -/
def contentAt (t : FsTree) (p : List String) : List Char :=
  ((t.entries.find? fun e => decide (e.path = p)).map (·.content)).getD []

/-- Rust's `compare_files` on the two trees' files at the path: byte-for-byte
equality. -/
def compare_files_at (l r : FsTree) (p : List String) : Bool :=
  decide (contentAt l p = contentAt r p)

/-- Type of difference between two directories. -/
inductive DiffType
  | LeftOnly
  | RightOnly
  | Modified
  | TypeMismatch
deriving DecidableEq

/-- A single difference entry. -/
structure DiffEntry where
  path : List String
  diff_type : DiffType
  left_is_dir : Option Bool
  right_is_dir : Option Bool
deriving DecidableEq

def DiffEntry.left_only (p : List String) (is_dir : Bool) : DiffEntry :=
  ⟨p, .LeftOnly, some is_dir, none⟩

def DiffEntry.right_only (p : List String) (is_dir : Bool) : DiffEntry :=
  ⟨p, .RightOnly, none, some is_dir⟩

def DiffEntry.modified (p : List String) : DiffEntry :=
  ⟨p, .Modified, some false, some false⟩

def DiffEntry.type_mismatch (p : List String) (left_is_dir right_is_dir : Bool) : DiffEntry :=
  ⟨p, .TypeMismatch, some left_is_dir, some right_is_dir⟩

/-- The proper non-empty ancestors of a relative path
(`path.ancestors().skip(1)` up to, excluding, the empty path). -/
def strictAncestors (p : List String) : List (List String) :=
  (List.range p.length).reverse.filterMap fun k =>
    if k = 0 then none else some (p.take k)

/-- The function `has_parent_diff`: some proper ancestor of the path already carries a
diff entry of the given type. -/
def has_parent_diff (diffs : List DiffEntry) (p : List String) (dt : DiffType) : Bool :=
  (strictAncestors p).any fun anc =>
    diffs.any fun d => decide (d.path = anc) && decide (d.diff_type = dt)

/-- The classification of one path of the union, given the entries pushed so
far (the body of the `for rel_path in all_paths` loop). -/
def entryFor (l r : FsTree) (diffs : List DiffEntry) (p : List String) : Option DiffEntry :=
  match existsIn l p, existsIn r p with
  | true, false =>
    let is_dir := isDirAt l p
    if !is_dir || !has_parent_diff diffs p .LeftOnly then
      some (DiffEntry.left_only p is_dir)
    else none
  | false, true =>
    let is_dir := isDirAt r p
    if !is_dir || !has_parent_diff diffs p .RightOnly then
      some (DiffEntry.right_only p is_dir)
    else none
  | true, true =>
    let left_is_dir := isDirAt l p
    let right_is_dir := isDirAt r p
    if left_is_dir != right_is_dir then
      some (DiffEntry.type_mismatch p left_is_dir right_is_dir)
    else if !left_is_dir then
      if !compare_files_at l r p then some (DiffEntry.modified p) else none
    else none
  | false, false => none

/-- The classification loop of `compare_directories`. -/
def buildDiffs (l r : FsTree) : List (List String) → List DiffEntry → List DiffEntry
  | [], acc => acc
  | p :: rest, acc =>
    match entryFor l r acc p with
    | some e => buildDiffs l r rest (acc ++ [e])
    | none => buildDiffs l r rest acc

/-- The function `filter_nested_diffs`: drop entries lying strictly under a `LeftOnly` or
`RightOnly` directory entry. -/
def filter_nested_diffs (diffs : List DiffEntry) : List DiffEntry :=
  let only_dirs := (diffs.filter fun d =>
    (decide (d.diff_type = .LeftOnly) || decide (d.diff_type = .RightOnly))
      && (d.left_is_dir.getD false || d.right_is_dir.getD false)).map (·.path)
  diffs.filter fun d =>
    !(only_dirs.any fun dir => decide (d.path ≠ dir) && dir.isPrefixOf d.path)

/-- The function `compare_directories`: classify every path of the union of the two path
sets, then suppress nested diffs. -/
def compare_directories (l r : FsTree) : List DiffEntry :=
  let all_paths := sortedDedup (collect_paths l ++ collect_paths r)
  filter_nested_diffs (buildDiffs l r all_paths [])

/-- Mirror a diff entry to the comparison with the two roots exchanged. -/
def swapEntry (d : DiffEntry) : DiffEntry :=
  { path := d.path,
    diff_type :=
      match d.diff_type with
      | .LeftOnly => .RightOnly
      | .RightOnly => .LeftOnly
      | t => t,
    left_is_dir := d.right_is_dir,
    right_is_dir := d.left_is_dir }

/-- The transformation the side-symmetry claim describes: `LeftOnly` and
`RightOnly` swapped with their flag moved, `Modified` and `TypeMismatch`
entries kept unchanged. -/
def claimSwap (d : DiffEntry) : DiffEntry :=
  match d.diff_type with
  | .LeftOnly =>
      { d with diff_type := .RightOnly, left_is_dir := none, right_is_dir := d.left_is_dir }
  | .RightOnly =>
      { d with diff_type := .LeftOnly, left_is_dir := d.right_is_dir, right_is_dir := none }
  | _ => d

/-! ### Choice-list padding -/

theorem chooseAt_append_skip (cs : List HunkChoice) (n i : Nat) :
    chooseAt (cs ++ List.replicate n .skip) i = chooseAt cs i := by
  unfold chooseAt
  by_cases h : i < cs.length
  · rw [List.get?_append h]
  · push_neg at h
    rw [List.get?_append_right h]
    have hcs : cs.get? i = none := List.get?_eq_none.mpr h
    rw [hcs]
    cases hr : (List.replicate n HunkChoice.skip).get? (i - cs.length) with
    | none => rfl
    | some c =>
      have : c ∈ List.replicate n HunkChoice.skip := List.get?_mem hr
      rw [List.eq_of_mem_replicate this]
      rfl

theorem processOps_congr (L R : List (List Char)) {cs₁ cs₂ : List HunkChoice}
    (h : ∀ i, chooseAt cs₁ i = chooseAt cs₂ i) :
    ∀ (ops : List DiffOp) (k : Nat),
      processOps L R cs₁ ops k = processOps L R cs₂ ops k := by
  intro ops
  induction ops with
  | nil => intro k; rfl
  | cons op rest ih =>
    intro k
    cases op with
    | equal oi ni len => simp only [processOps, ih]
    | delete oi olen ni => simp only [processOps, ih, h k]
    | insert oi ni nlen => simp only [processOps, ih, h k]
    | replace oi olen ni nlen => simp only [processOps, ih, h k]

theorem find?_append_of_none {α : Type} (p : α → Bool) {l₁ : List α} (l₂ : List α)
    (h : l₁.find? p = none) : (l₁ ++ l₂).find? p = l₂.find? p := by
  induction l₁ with
  | nil => rfl
  | cons a as ih =>
    cases hp : p a with
    | true =>
      rw [List.find?_cons_of_pos _ hp] at h
      exact absurd h (by simp)
    | false =>
      have hp' : ¬ p a = true := by simp [hp]
      rw [List.find?_cons_of_neg _ hp'] at h
      rw [List.cons_append, List.find?_cons_of_neg _ hp']
      exact ih h

theorem lastNonSkip_append_skip (cs : List HunkChoice) (n : Nat) :
    lastNonSkip (cs ++ List.replicate n .skip) = lastNonSkip cs := by
  unfold lastNonSkip
  rw [List.reverse_append, List.reverse_replicate]
  refine find?_append_of_none _ _ ?_
  rw [List.find?_eq_none]
  intro x hx
  rw [List.eq_of_mem_replicate hx]
  simp

/-! ### The trailing-newline resolution, as the spec words it -/

/-- Modelled from the spec: the last non-Skip decision of the choices list
(a forward scan keeping the most recent decisive choice). -/
def lastDecision (choices : List HunkChoice) : Option HunkChoice :=
  choices.foldl (fun acc c => if c = .skip then acc else some c) none

/-- Modelled from the spec: the resolved trailing-newline flags of the two
outputs.  If the last non-Skip decision is Left both outputs adopt the left
text's flag, if Right both adopt the right text's, otherwise each keeps its
own. -/
def resolvedFlags (choices : List HunkChoice) (left_has right_has : Bool) :
    Bool × Bool :=
  match lastDecision choices with
  | some .left => (left_has, left_has)
  | some .right => (right_has, right_has)
  | _ => (left_has, right_has)

theorem lastDecision_concat (cs : List HunkChoice) (c : HunkChoice) :
    lastDecision (cs ++ [c]) = if c = .skip then lastDecision cs else some c := by
  unfold lastDecision
  rw [List.foldl_append]
  rfl

theorem lastNonSkip_eq_lastDecision (cs : List HunkChoice) :
    lastNonSkip cs = lastDecision cs := by
  induction cs using List.reverseRecOn with
  | nil => rfl
  | append_singleton cs c ih =>
    rw [lastDecision_concat]
    unfold lastNonSkip
    rw [List.reverse_append]
    simp only [List.reverse_cons, List.reverse_nil, List.nil_append, List.singleton_append,
      List.find?]
    by_cases hc : c = HunkChoice.skip
    · simp only [hc, if_pos rfl]
      simp only [decide_not]
      simp [lastNonSkip] at ih
      rw [← ih]
      rfl
    · simp [hc]

/-! ### Operation-index alignment -/

theorem countChangeOps_nil : countChangeOps [] = 0 := rfl

theorem countChangeOps_cons (op : DiffOp) (rest : List DiffOp) :
    countChangeOps (op :: rest) =
      (if isChangeOp op then 1 else 0) + countChangeOps rest := by
  unfold countChangeOps
  cases h : isChangeOp op <;> simp [List.filter_cons, h, Nat.add_comm]

theorem processOps_append (L R : List (List Char)) (cs : List HunkChoice) :
    ∀ (xs ys : List DiffOp) (i : Nat),
      processOps L R cs (xs ++ ys) i =
        ((processOps L R cs xs i).1 ++ (processOps L R cs ys (i + countChangeOps xs)).1,
         (processOps L R cs xs i).2 ++ (processOps L R cs ys (i + countChangeOps xs)).2) := by
  intro xs
  induction xs with
  | nil =>
    intro ys i
    simp [processOps, countChangeOps]
  | cons op rest ih =>
    intro ys i
    cases op with
    | equal oi ni len =>
      simp only [List.cons_append, processOps, ih, countChangeOps_cons]
      simp [ih, isChangeOp, List.append_assoc]
    | delete oi olen ni =>
      simp only [List.cons_append, processOps, ih, countChangeOps_cons]
      cases chooseAt cs i <;>
        simp [ih, isChangeOp, List.append_assoc, Nat.add_comm, Nat.add_left_comm, Nat.add_assoc]
    | insert oi ni nlen =>
      simp only [List.cons_append, processOps, ih, countChangeOps_cons]
      cases chooseAt cs i <;>
        simp [ih, isChangeOp, List.append_assoc, Nat.add_comm, Nat.add_left_comm, Nat.add_assoc]
    | replace oi olen ni nlen =>
      simp only [List.cons_append, processOps, ih, countChangeOps_cons]
      cases chooseAt cs i <;>
        simp [ih, isChangeOp, List.append_assoc, Nat.add_comm, Nat.add_left_comm, Nat.add_assoc]

theorem extract_hunks_length (l r : List Char) (ctx : Nat) :
    ∀ ops : List DiffOp, (extract_hunks l r ctx ops).length = countChangeOps ops := by
  intro ops
  induction ops with
  | nil => rfl
  | cons op rest ih =>
    cases op with
    | equal oi ni len =>
      simp only [extract_hunks, List.filterMap_cons, countChangeOps_cons] at *
      simpa [hunkOfOp, isChangeOp] using ih
    | delete oi olen ni =>
      simp only [extract_hunks, List.filterMap_cons, countChangeOps_cons] at *
      simpa [hunkOfOp, isChangeOp, Nat.add_comm] using ih
    | insert oi ni nlen =>
      simp only [extract_hunks, List.filterMap_cons, countChangeOps_cons] at *
      simpa [hunkOfOp, isChangeOp, Nat.add_comm] using ih
    | replace oi olen ni nlen =>
      simp only [extract_hunks, List.filterMap_cons, countChangeOps_cons] at *
      simpa [hunkOfOp, isChangeOp, Nat.add_comm] using ih

/-! ### Provenance of produced lines (bounds-guarded accesses) -/

theorem mem_collectPlain {L : List (List Char)} {a b : Nat} {s : List Char}
    (h : s ∈ collectPlain L a b) : s ∈ L := by
  unfold collectPlain at h
  rcases List.mem_filterMap.mp h with ⟨i, _, hg⟩
  exact List.get?_mem hg

theorem collectPlain_subset (L : List (List Char)) (a b : Nat) :
    collectPlain L a b ⊆ L :=
  fun _ h => mem_collectPlain h

theorem processOps_subset (L R : List (List Char)) (cs : List HunkChoice) :
    ∀ (ops : List DiffOp) (i : Nat),
      (processOps L R cs ops i).1 ⊆ L ++ R ∧ (processOps L R cs ops i).2 ⊆ L ++ R := by
  intro ops
  induction ops with
  | nil =>
    intro i
    constructor <;> intro s hs <;> simp [processOps] at hs
  | cons op rest ih =>
    intro i
    have hL : ∀ a b, collectPlain L a b ⊆ L ++ R :=
      fun a b => (collectPlain_subset L a b).trans (List.subset_append_left _ _)
    have hR : ∀ a b, collectPlain R a b ⊆ L ++ R :=
      fun a b => (collectPlain_subset R a b).trans (List.subset_append_right _ _)
    cases op with
    | equal oi ni len =>
      simp only [processOps]
      exact ⟨List.append_subset.mpr ⟨hL oi len, (ih i).1⟩,
             List.append_subset.mpr ⟨hL oi len, (ih i).2⟩⟩
    | delete oi olen ni =>
      simp only [processOps]
      cases chooseAt cs i with
      | left =>
        exact ⟨List.append_subset.mpr ⟨hL oi olen, (ih (i + 1)).1⟩,
               List.append_subset.mpr ⟨hL oi olen, (ih (i + 1)).2⟩⟩
      | right => exact ih (i + 1)
      | skip =>
        exact ⟨List.append_subset.mpr ⟨hL oi olen, (ih (i + 1)).1⟩, (ih (i + 1)).2⟩
    | insert oi ni nlen =>
      simp only [processOps]
      cases chooseAt cs i with
      | left => exact ih (i + 1)
      | right =>
        exact ⟨List.append_subset.mpr ⟨hR ni nlen, (ih (i + 1)).1⟩,
               List.append_subset.mpr ⟨hR ni nlen, (ih (i + 1)).2⟩⟩
      | skip =>
        exact ⟨(ih (i + 1)).1, List.append_subset.mpr ⟨hR ni nlen, (ih (i + 1)).2⟩⟩
    | replace oi olen ni nlen =>
      simp only [processOps]
      cases chooseAt cs i with
      | left =>
        exact ⟨List.append_subset.mpr ⟨hL oi olen, (ih (i + 1)).1⟩,
               List.append_subset.mpr ⟨hL oi olen, (ih (i + 1)).2⟩⟩
      | right =>
        exact ⟨List.append_subset.mpr ⟨hR ni nlen, (ih (i + 1)).1⟩,
               List.append_subset.mpr ⟨hR ni nlen, (ih (i + 1)).2⟩⟩
      | skip =>
        exact ⟨List.append_subset.mpr ⟨hL oi olen, (ih (i + 1)).1⟩,
               List.append_subset.mpr ⟨hR ni nlen, (ih (i + 1)).2⟩⟩

/-- Whether `s` is some source line of `t`, rendered by `format_line_with_newline` at
an in-range index. -/
def isFormattedLineOf (t s : List Char) : Bool :=
  (List.range (rustLines t).length).any fun j =>
    s == format_line_with_newline ((rustLines t).getD j []) j (rustLines t).length
      (endsWithNewline t)

theorem mem_collectFormatted {L : List (List Char)} {e : Bool} {a b : Nat}
    {s : List Char} (h : s ∈ collectFormatted L e a b) :
    ∃ j, j < L.length ∧ s = format_line_with_newline (L.getD j []) j L.length e := by
  unfold collectFormatted at h
  rcases List.mem_filterMap.mp h with ⟨i, _, hg⟩
  cases hx : L.get? i with
  | none => rw [hx] at hg; simp at hg
  | some x =>
    rw [hx] at hg
    simp at hg
    rcases List.get?_eq_some.mp hx with ⟨hlt, _⟩
    refine ⟨i, hlt, ?_⟩
    have hgd : L.getD i [] = x := by
      rw [List.getD_eq_getElem?_getD, List.get?_eq_getElem?] at *
      rw [hx]
      rfl
    rw [hgd]
    exact hg.symm

theorem isFormattedLineOf_of_mem {t s : List Char} {a b : Nat}
    (h : s ∈ collectFormatted (rustLines t) (endsWithNewline t) a b) :
    isFormattedLineOf t s = true := by
  rcases mem_collectFormatted h with ⟨j, hj, hs⟩
  unfold isFormattedLineOf
  rw [List.any_eq_true]
  refine ⟨j, List.mem_range.mpr hj, ?_⟩
  rw [hs]
  simp

/-! ### Consequences of the engine contract -/

theorem validFrom_le (LL RL : Nat) :
    ∀ (ops : List DiffOp) (pl pr : Nat),
      validFrom LL RL pl pr ops = true → pl ≤ LL ∧ pr ≤ RL := by
  intro ops
  induction ops with
  | nil =>
    intro pl pr h
    simp [validFrom] at h
    omega
  | cons op rest ih =>
    intro pl pr h
    cases op with
    | equal oi ni len =>
      simp only [validFrom, Bool.and_eq_true, beq_iff_eq] at h
      have := ih _ _ h.2
      omega
    | delete oi olen ni =>
      simp only [validFrom, Bool.and_eq_true, beq_iff_eq] at h
      have := ih _ _ h.2
      omega
    | insert oi ni nlen =>
      simp only [validFrom, Bool.and_eq_true, beq_iff_eq] at h
      have := ih _ _ h.2
      omega
    | replace oi olen ni nlen =>
      simp only [validFrom, Bool.and_eq_true, beq_iff_eq] at h
      have := ih _ _ h.2
      omega

/-- The in-range condition each operation of a valid sequence satisfies. -/
def opInBounds (LL RL : Nat) : DiffOp → Prop
  | .equal oi ni len => oi + len ≤ LL ∧ ni + len ≤ RL
  | .delete oi olen ni => oi + olen ≤ LL ∧ ni ≤ RL
  | .insert oi ni nlen => oi ≤ LL ∧ ni + nlen ≤ RL
  | .replace oi olen ni nlen => oi + olen ≤ LL ∧ ni + nlen ≤ RL

theorem validFrom_bounds (LL RL : Nat) :
    ∀ (ops : List DiffOp) (pl pr : Nat),
      validFrom LL RL pl pr ops = true → ∀ op ∈ ops, opInBounds LL RL op := by
  intro ops
  induction ops with
  | nil => intro pl pr _ op hop; simp at hop
  | cons op₀ rest ih =>
    intro pl pr h op hop
    rcases List.mem_cons.mp hop with rfl | hop'
    · cases op with
      | equal oi ni len =>
        simp only [validFrom, Bool.and_eq_true, beq_iff_eq] at h
        have := validFrom_le LL RL rest _ _ h.2
        exact ⟨by omega, by omega⟩
      | delete oi olen ni =>
        simp only [validFrom, Bool.and_eq_true, beq_iff_eq] at h
        have := validFrom_le LL RL rest _ _ h.2
        exact ⟨by omega, by omega⟩
      | insert oi ni nlen =>
        simp only [validFrom, Bool.and_eq_true, beq_iff_eq] at h
        have := validFrom_le LL RL rest _ _ h.2
        exact ⟨by omega, by omega⟩
      | replace oi olen ni nlen =>
        simp only [validFrom, Bool.and_eq_true, beq_iff_eq] at h
        have := validFrom_le LL RL rest _ _ h.2
        exact ⟨by omega, by omega⟩
    · cases op₀ with
      | equal oi ni len =>
        simp only [validFrom, Bool.and_eq_true, beq_iff_eq] at h
        exact ih _ _ h.2 op hop'
      | delete oi olen ni =>
        simp only [validFrom, Bool.and_eq_true, beq_iff_eq] at h
        exact ih _ _ h.2 op hop'
      | insert oi ni nlen =>
        simp only [validFrom, Bool.and_eq_true, beq_iff_eq] at h
        exact ih _ _ h.2 op hop'
      | replace oi olen ni nlen =>
        simp only [validFrom, Bool.and_eq_true, beq_iff_eq] at h
        exact ih _ _ h.2 op hop'

theorem collectFormatted_length (L : List (List Char)) (e : Bool) :
    ∀ (b a : Nat), a + b ≤ L.length → (collectFormatted L e a b).length = b := by
  intro b
  induction b with
  | zero => intro a _; rfl
  | succ n ih =>
    intro a hab
    unfold collectFormatted
    rw [List.range'_succ]
    have ha : a < L.length := by omega
    rcases List.get?_eq_some.mpr ⟨ha, rfl⟩ with hx
    rw [List.filterMap_cons, hx]
    simp only [Option.map_some']
    have h2 := ih (a + 1) (by omega)
    unfold collectFormatted at h2
    simp only [List.get?_eq_getElem?] at h2 ⊢
    simp [h2]

theorem collectPlain_eq_drop_take (L : List (List Char)) :
    ∀ (b a : Nat), a + b ≤ L.length → collectPlain L a b = (L.drop a).take b := by
  intro b
  induction b with
  | zero => intro a _; rfl
  | succ n ih =>
    intro a hab
    unfold collectPlain
    rw [List.range'_succ]
    have ha : a < L.length := by omega
    rcases List.get?_eq_some.mpr ⟨ha, rfl⟩ with hx
    rw [List.filterMap_cons, hx]
    rw [List.drop_eq_getElem_cons ha, List.take_cons]
    have h2 := ih (a + 1) (by omega)
    unfold collectPlain at h2
    simp only [List.get?_eq_getElem?] at h2 ⊢
    rw [h2]
    · simp [List.get_eq_getElem]
    · omega

/-! ### The joined buffer of an unchanged side -/

theorem joinNL_nil : joinNL [] = [] := rfl

theorem joinNL_singleton (x : List Char) : joinNL [x] = x := by
  simp [joinNL, List.intercalate, List.intersperse]

theorem joinNL_cons_cons (x y : List Char) (L : List (List Char)) :
    joinNL (x :: y :: L) = x ++ '\n' :: joinNL (y :: L) := by
  simp [joinNL, List.intercalate, List.intersperse]

theorem joinNL_cons_head (c : Char) (x : List Char) (M : List (List Char)) :
    joinNL ((c :: x) :: M) = c :: joinNL (x :: M) := by
  cases M with
  | nil => rw [joinNL_singleton, joinNL_singleton]
  | cons y L => rw [joinNL_cons_cons, joinNL_cons_cons, List.cons_append]

/-- For a CRLF-free text, joining its lines with single newlines gives the
text itself, less its trailing newline when it has one. -/
theorem joinNL_rustLines (t : List Char) (h : noCRLF t = true) :
    joinNL (rustLines t) = if endsWithNewline t then t.dropLast else t := by
  induction t with
  | nil => rfl
  | cons c rest ih =>
    by_cases hc : c = '\n'
    · subst hc
      rw [rustLines_nl]
      cases hrest : rest with
      | nil => rfl
      | cons a as =>
        rw [← hrest]
        have hrne : rest ≠ [] := by rw [hrest]; simp
        have ih' := ih (noCRLF_tail h)
        cases hrl : rustLines rest with
        | nil => exact absurd hrl (rustLines_ne_nil hrne)
        | cons y L =>
          rw [joinNL_cons_cons, List.nil_append, ← hrl, ih',
            endsWithNewline_cons hrne]
          by_cases he : endsWithNewline rest = true
          · rw [if_pos he, if_pos he]
            cases hre : rest with
            | nil => exact absurd hre hrne
            | cons b bs => rw [← hre, List.dropLast_cons_of_ne_nil hrne]
          · rw [if_neg he, if_neg he]
    · have hrestC : noCRLF rest = true := noCRLF_tail h
      cases hsp : splitInclusive rest with
      | nil =>
        have hrnil : rest = [] := splitInclusive_eq_nil hsp
        subst hrnil
        have hsplit : splitInclusive [c] = [[c]] := by
          simp [splitInclusive, hc]
        have hlm : linesMap [c] = [c] := by
          unfold linesMap
          simp [hc]
        have he : endsWithNewline [c] = false := by
          unfold endsWithNewline
          simp [hc]
        unfold rustLines
        rw [hsplit, he]
        simp only [List.map_cons, List.map_nil, hlm]
        rw [joinNL_singleton]
        rfl
      | cons g gs =>
        have hrne : rest ≠ [] := by
          intro hre; rw [hre] at hsp; simp [splitInclusive] at hsp
        have hsplit : splitInclusive (c :: rest) = (c :: g) :: gs := by
          simp only [splitInclusive, if_neg hc]
          rw [hsp]
        have hgne : g ≠ [] :=
          mem_splitInclusive_ne_nil (by rw [hsp]; exact List.mem_cons_self _ _)
        have hbad : ¬(c = '\r' ∧ g = ['\n']) := by
          rintro ⟨hcr, hgn⟩
          have hflat : rest = '\n' :: gs.flatten := by
            have := join_splitInclusive rest
            rw [hsp, hgn] at this
            simpa using this.symm
          rw [hcr, hflat] at h
          simp [noCRLF] at h
        have hlm := linesMap_cons hgne hbad
        have h1 : rustLines (c :: rest) = (c :: linesMap g) :: gs.map linesMap := by
          unfold rustLines
          rw [hsplit]
          simp only [List.map_cons, hlm]
        have h2 : rustLines rest = linesMap g :: gs.map linesMap := by
          unfold rustLines
          rw [hsp]
          simp only [List.map_cons]
        have ih' := ih hrestC
        rw [h2] at ih'
        rw [h1, joinNL_cons_head, ih', endsWithNewline_cons hrne]
        by_cases he : endsWithNewline rest = true
        · rw [if_pos he, if_pos he, List.dropLast_cons_of_ne_nil hrne]
        · rw [if_neg he, if_neg he]

/-- Joining an unchanged side's lines and re-applying its own trailing flag
reproduces the text, unless the text is exactly `"\n"`. -/
theorem finalizeMerged_self (t : List Char) (hnc : noCRLF t = true)
    (h1 : t ≠ ['\n']) :
    finalizeMerged (rustLines t) (endsWithNewline t) = t := by
  unfold finalizeMerged
  rw [joinNL_rustLines t hnc]
  by_cases he : endsWithNewline t = true
  · rw [if_pos he]
    have htne : t ≠ [] := by
      intro h0
      rw [h0] at he
      simp [endsWithNewline] at he
    have hlast : t.getLast htne = '\n' := by
      unfold endsWithNewline at he
      rw [List.getLast?_eq_getLast t htne] at he
      simpa using he
    have hlen : 2 ≤ t.length := by
      rcases t with _ | ⟨a, as⟩
      · exact absurd rfl htne
      · rcases as with _ | ⟨b, bs⟩
        · exfalso
          apply h1
          have : a = '\n' := by simpa using hlast
          rw [this]
        · simp
    have hdne : t.dropLast ≠ [] := by
      intro hdn
      have := congrArg List.length hdn
      simp at this
      omega
    have : (t.dropLast.isEmpty : Bool) = false := by
      simp [List.isEmpty_iff, hdne]
    simp only [he, this, Bool.and_self, Bool.not_false, Bool.true_and, if_true]
    conv_rhs => rw [← List.dropLast_append_getLast htne]
    rw [hlast]
  · simp at he
    rw [if_neg (by simp [he]), he]
    simp

/-! ### All-Left and all-Right reconstruction -/

theorem drop_take_drop (L : List (List Char)) (pl len : Nat) :
    (L.drop pl).take len ++ L.drop (pl + len) = L.drop pl := by
  rw [← List.drop_drop]
  exact List.take_append_drop len (L.drop pl)

theorem chooseAt_replicate {c : HunkChoice} {n j : Nat} (hj : j < n) :
    chooseAt (List.replicate n c) j = c := by
  unfold chooseAt
  rw [List.get?_eq_getElem?, List.getElem?_replicate, if_pos hj]
  rfl

theorem lastNonSkip_replicate {c : HunkChoice} (hc : c ≠ .skip) {n : Nat}
    (hn : n ≠ 0) : lastNonSkip (List.replicate n c) = some c := by
  unfold lastNonSkip
  rw [List.reverse_replicate]
  cases n with
  | zero => exact absurd rfl hn
  | succ m =>
    rw [List.replicate_succ, List.find?_cons_of_pos _ (by simpa using hc)]

theorem processOps_all_left (L R : List (List Char)) (RL : Nat)
    (cs : List HunkChoice) :
    ∀ (ops : List DiffOp) (pl pr i : Nat),
      validFrom L.length RL pl pr ops = true →
      (∀ j, i ≤ j → j < i + countChangeOps ops → chooseAt cs j = .left) →
      processOps L R cs ops i = (L.drop pl, L.drop pl) := by
  intro ops
  induction ops with
  | nil =>
    intro pl pr i h _
    simp [validFrom] at h
    rw [List.drop_eq_nil_of_le (le_of_eq h.1.symm)]
    rfl
  | cons op rest ih =>
    intro pl pr i h hchoice
    cases op with
    | equal oi ni len =>
      simp only [validFrom, Bool.and_eq_true, beq_iff_eq] at h
      obtain ⟨⟨rfl, rfl⟩, hrest⟩ := h
      have hcnt : countChangeOps (DiffOp.equal oi ni len :: rest) = countChangeOps rest := by
        rw [countChangeOps_cons]; simp [isChangeOp]
      have hle := validFrom_le L.length RL rest _ _ hrest
      have hseg : collectPlain L oi len = (L.drop oi).take len :=
        collectPlain_eq_drop_take L len oi (by omega)
      simp only [processOps]
      rw [ih _ _ i hrest (fun j h1 h2 => hchoice j h1 (by rw [hcnt]; omega)),
        hseg]
      rw [drop_take_drop]
    | delete oi olen ni =>
      simp only [validFrom, Bool.and_eq_true, beq_iff_eq] at h
      obtain ⟨⟨rfl, rfl⟩, hrest⟩ := h
      have hcnt : countChangeOps (DiffOp.delete oi olen ni :: rest)
          = 1 + countChangeOps rest := by
        rw [countChangeOps_cons]; simp [isChangeOp]
      have hch : chooseAt cs i = .left :=
        hchoice i le_rfl (by rw [hcnt]; omega)
      have hle := validFrom_le L.length RL rest _ _ hrest
      have hseg : collectPlain L oi olen = (L.drop oi).take olen :=
        collectPlain_eq_drop_take L olen oi (by omega)
      simp only [processOps, hch]
      rw [ih _ _ (i + 1) hrest (fun j h1 h2 => hchoice j (by omega) (by rw [hcnt]; omega)),
        hseg]
      rw [drop_take_drop]
    | insert oi ni nlen =>
      simp only [validFrom, Bool.and_eq_true, beq_iff_eq] at h
      obtain ⟨⟨rfl, rfl⟩, hrest⟩ := h
      have hcnt : countChangeOps (DiffOp.insert oi ni nlen :: rest)
          = 1 + countChangeOps rest := by
        rw [countChangeOps_cons]; simp [isChangeOp]
      have hch : chooseAt cs i = .left :=
        hchoice i le_rfl (by rw [hcnt]; omega)
      simp only [processOps, hch]
      exact ih _ _ (i + 1) hrest
        (fun j h1 h2 => hchoice j (by omega) (by rw [hcnt]; omega))
    | replace oi olen ni nlen =>
      simp only [validFrom, Bool.and_eq_true, beq_iff_eq] at h
      obtain ⟨⟨rfl, rfl⟩, hrest⟩ := h
      have hcnt : countChangeOps (DiffOp.replace oi olen ni nlen :: rest)
          = 1 + countChangeOps rest := by
        rw [countChangeOps_cons]; simp [isChangeOp]
      have hch : chooseAt cs i = .left :=
        hchoice i le_rfl (by rw [hcnt]; omega)
      have hle := validFrom_le L.length RL rest _ _ hrest
      have hseg : collectPlain L oi olen = (L.drop oi).take olen :=
        collectPlain_eq_drop_take L olen oi (by omega)
      simp only [processOps, hch]
      rw [ih _ _ (i + 1) hrest (fun j h1 h2 => hchoice j (by omega) (by rw [hcnt]; omega)),
        hseg]
      rw [drop_take_drop]

theorem collectPlain_congr (L R : List (List Char)) :
    ∀ (len pl pr : Nat),
      (∀ k, k < len → L.get? (pl + k) = R.get? (pr + k)) →
      collectPlain L pl len = collectPlain R pr len := by
  intro len
  induction len with
  | zero => intro pl pr _; rfl
  | succ n ih =>
    intro pl pr hpt
    unfold collectPlain
    rw [List.range'_succ, List.range'_succ, List.filterMap_cons, List.filterMap_cons]
    have h0 : L.get? pl = R.get? pr := by
      have := hpt 0 (by omega)
      simpa using this
    have hrec := ih (pl + 1) (pr + 1) fun k hk => by
      have := hpt (k + 1) (by omega)
      rw [show pl + (k + 1) = pl + 1 + k by omega, show pr + (k + 1) = pr + 1 + k by omega]
        at this
      exact this
    unfold collectPlain at hrec
    rw [hrec, h0]

theorem equalsSound_tail {l r : List Char} {op : DiffOp} {rest : List DiffOp}
    (h : equalsSound l r (op :: rest) = true) : equalsSound l r rest = true := by
  unfold equalsSound at h ⊢
  rw [List.all_cons, Bool.and_eq_true] at h
  exact h.2

theorem equalsSound_head {l r : List Char} {oi ni len : Nat} {rest : List DiffOp}
    (h : equalsSound l r (.equal oi ni len :: rest) = true) :
    ∀ k, k < len → (rustLines l).get? (oi + k) = (rustLines r).get? (ni + k) := by
  intro k hk
  unfold equalsSound at h
  rw [List.all_cons, Bool.and_eq_true] at h
  have h1 := h.1
  simp only [List.all_eq_true] at h1
  have h2 := h1 k (List.mem_range.mpr hk)
  have h3 : (splitInclusive l).get? (oi + k) = (splitInclusive r).get? (ni + k) := by
    exact eq_of_beq h2
  unfold rustLines
  rw [List.get?_eq_getElem?, List.get?_eq_getElem?, List.getElem?_map, List.getElem?_map]
  rw [List.get?_eq_getElem?, List.get?_eq_getElem?] at h3
  rw [h3]

theorem processOps_all_right (l r : List Char) (cs : List HunkChoice) :
    ∀ (ops : List DiffOp) (pl pr i : Nat),
      validFrom (rustLines l).length (rustLines r).length pl pr ops = true →
      equalsSound l r ops = true →
      (∀ j, i ≤ j → j < i + countChangeOps ops → chooseAt cs j = .right) →
      processOps (rustLines l) (rustLines r) cs ops i
        = ((rustLines r).drop pr, (rustLines r).drop pr) := by
  intro ops
  induction ops with
  | nil =>
    intro pl pr i h _ _
    simp [validFrom] at h
    rw [List.drop_eq_nil_of_le (le_of_eq h.2.symm)]
    rfl
  | cons op rest ih =>
    intro pl pr i h hsound hchoice
    cases op with
    | equal oi ni len =>
      simp only [validFrom, Bool.and_eq_true, beq_iff_eq] at h
      obtain ⟨⟨rfl, rfl⟩, hrest⟩ := h
      have hcnt : countChangeOps (DiffOp.equal oi ni len :: rest) = countChangeOps rest := by
        rw [countChangeOps_cons]; simp [isChangeOp]
      have hle := validFrom_le (rustLines l).length (rustLines r).length rest _ _ hrest
      have hseg : collectPlain (rustLines l) oi len = collectPlain (rustLines r) ni len :=
        collectPlain_congr _ _ len oi ni fun k hk => equalsSound_head hsound k hk
      have hseg2 : collectPlain (rustLines r) ni len = ((rustLines r).drop ni).take len :=
        collectPlain_eq_drop_take _ len ni (by omega)
      simp only [processOps]
      rw [ih _ _ i hrest (equalsSound_tail hsound)
        (fun j h1 h2 => hchoice j h1 (by rw [hcnt]; omega)), hseg, hseg2]
      rw [drop_take_drop]
    | delete oi olen ni =>
      simp only [validFrom, Bool.and_eq_true, beq_iff_eq] at h
      obtain ⟨⟨rfl, rfl⟩, hrest⟩ := h
      have hcnt : countChangeOps (DiffOp.delete oi olen ni :: rest)
          = 1 + countChangeOps rest := by
        rw [countChangeOps_cons]; simp [isChangeOp]
      have hch : chooseAt cs i = .right :=
        hchoice i le_rfl (by rw [hcnt]; omega)
      simp only [processOps, hch]
      exact ih _ _ (i + 1) hrest (equalsSound_tail hsound)
        (fun j h1 h2 => hchoice j (by omega) (by rw [hcnt]; omega))
    | insert oi ni nlen =>
      simp only [validFrom, Bool.and_eq_true, beq_iff_eq] at h
      obtain ⟨⟨rfl, rfl⟩, hrest⟩ := h
      have hcnt : countChangeOps (DiffOp.insert oi ni nlen :: rest)
          = 1 + countChangeOps rest := by
        rw [countChangeOps_cons]; simp [isChangeOp]
      have hch : chooseAt cs i = .right :=
        hchoice i le_rfl (by rw [hcnt]; omega)
      have hle := validFrom_le (rustLines l).length (rustLines r).length rest _ _ hrest
      have hseg : collectPlain (rustLines r) ni nlen = ((rustLines r).drop ni).take nlen :=
        collectPlain_eq_drop_take _ nlen ni (by omega)
      simp only [processOps, hch]
      rw [ih _ _ (i + 1) hrest (equalsSound_tail hsound)
        (fun j h1 h2 => hchoice j (by omega) (by rw [hcnt]; omega)), hseg]
      rw [drop_take_drop]
    | replace oi olen ni nlen =>
      simp only [validFrom, Bool.and_eq_true, beq_iff_eq] at h
      obtain ⟨⟨rfl, rfl⟩, hrest⟩ := h
      have hcnt : countChangeOps (DiffOp.replace oi olen ni nlen :: rest)
          = 1 + countChangeOps rest := by
        rw [countChangeOps_cons]; simp [isChangeOp]
      have hch : chooseAt cs i = .right :=
        hchoice i le_rfl (by rw [hcnt]; omega)
      have hle := validFrom_le (rustLines l).length (rustLines r).length rest _ _ hrest
      have hseg : collectPlain (rustLines r) ni nlen = ((rustLines r).drop ni).take nlen :=
        collectPlain_eq_drop_take _ nlen ni (by omega)
      simp only [processOps, hch]
      rw [ih _ _ (i + 1) hrest (equalsSound_tail hsound)
        (fun j h1 h2 => hchoice j (by omega) (by rw [hcnt]; omega)), hseg]
      rw [drop_take_drop]

theorem equalsSound_head_tok {l r : List Char} {oi ni len : Nat} {rest : List DiffOp}
    (h : equalsSound l r (.equal oi ni len :: rest) = true) :
    ∀ k, k < len → (splitInclusive l).get? (oi + k) = (splitInclusive r).get? (ni + k) := by
  intro k hk
  unfold equalsSound at h
  rw [List.all_cons, Bool.and_eq_true] at h
  have h1 := h.1
  simp only [List.all_eq_true] at h1
  exact eq_of_beq (h1 k (List.mem_range.mpr hk))

theorem tokens_eq_aux (l r : List Char) :
    ∀ (ops : List DiffOp) (pl : Nat),
      validFrom (rustLines l).length (rustLines r).length pl pl ops = true →
      (∀ op ∈ ops, isChangeOp op = false) →
      equalsSound l r ops = true →
      (∀ k, pl ≤ k → k < (rustLines l).length →
        (splitInclusive l).get? k = (splitInclusive r).get? k) ∧
      (rustLines l).length = (rustLines r).length := by
  intro ops
  induction ops with
  | nil =>
    intro pl h _ _
    simp [validFrom] at h
    exact ⟨fun k hk1 hk2 => by omega, by omega⟩
  | cons op rest ih =>
    intro pl h hall hsound
    have hop0 : isChangeOp op = false := hall op (List.mem_cons_self _ _)
    cases op with
    | delete oi olen ni => simp [isChangeOp] at hop0
    | insert oi ni nlen => simp [isChangeOp] at hop0
    | replace oi olen ni nlen => simp [isChangeOp] at hop0
    | equal oi ni len =>
      simp only [validFrom, Bool.and_eq_true, beq_iff_eq] at h
      obtain ⟨⟨h1, h2⟩, hrest⟩ := h
      have ihh := ih (pl + len) hrest
        (fun op hop => hall op (List.mem_cons_of_mem _ hop)) (equalsSound_tail hsound)
      refine ⟨fun k hk1 hk2 => ?_, ihh.2⟩
      by_cases hkl : k < pl + len
      · have htk := equalsSound_head_tok hsound (k - pl) (by omega)
        rw [show oi + (k - pl) = k from by omega,
          show ni + (k - pl) = k from by omega] at htk
        exact htk
      · exact ihh.1 k (by omega) hk2

theorem eq_of_all_equal {l r : List Char} {ops : List DiffOp}
    (hv : ValidOps l r ops = true) (hs : equalsSound l r ops = true)
    (h0 : countChangeOps ops = 0) : l = r := by
  have hall : ∀ op ∈ ops, isChangeOp op = false := by
    unfold countChangeOps at h0
    rw [List.length_eq_zero] at h0
    intro op hop
    by_contra hcc
    have hmm : op ∈ ops.filter isChangeOp :=
      List.mem_filter.mpr ⟨hop, by simpa using hcc⟩
    rw [h0] at hmm
    simp at hmm
  have haux := tokens_eq_aux l r ops 0 hv hall hs
  have hlenL : (splitInclusive l).length = (rustLines l).length := by
    unfold rustLines; simp
  have hlenR : (splitInclusive r).length = (rustLines r).length := by
    unfold rustLines; simp
  have htok : ∀ k, (splitInclusive l).get? k = (splitInclusive r).get? k := by
    intro k
    by_cases hk : k < (rustLines l).length
    · exact haux.1 k (Nat.zero_le k) hk
    · push_neg at hk
      rw [List.get?_eq_none.mpr (by omega), List.get?_eq_none.mpr (by
        have := haux.2
        omega)]
  have hsp : splitInclusive l = splitInclusive r := List.ext_get? htok
  have h1 := join_splitInclusive l
  rw [hsp, join_splitInclusive r] at h1
  exact h1.symm

/-! ### The path order -/

theorem charListLt_irrefl : ∀ a : List Char, charListLt a a = false := by
  intro a
  induction a with
  | nil => rfl
  | cons c cs ih => simp [charListLt, lt_irrefl, ih]

theorem charListLt_trans :
    ∀ a b c : List Char, charListLt a b = true → charListLt b c = true →
      charListLt a c = true := by
  intro a
  induction a with
  | nil =>
    intro b c hab hbc
    cases b with
    | nil => simp [charListLt] at hab
    | cons y ys =>
      cases c with
      | nil => simp [charListLt] at hbc
      | cons z zs => rfl
  | cons x xs ih =>
    intro b c hab hbc
    cases b with
    | nil => simp [charListLt] at hab
    | cons y ys =>
      cases c with
      | nil => simp [charListLt] at hbc
      | cons z zs =>
        simp only [charListLt] at hab hbc ⊢
        by_cases hxy : x < y
        · by_cases hyz : y < z
          · simp [lt_trans hxy hyz]
          · by_cases hzy : z < y
            · rw [if_neg hyz, if_pos hzy] at hbc
              simp at hbc
            · have hyz' : y = z := le_antisymm (not_lt.mp hzy) (not_lt.mp hyz)
              subst hyz'
              simp [hxy]
        · by_cases hyx : y < x
          · rw [if_neg hxy, if_pos hyx] at hab
            simp at hab
          · have hxy' : x = y := le_antisymm (not_lt.mp hyx) (not_lt.mp hxy)
            subst hxy'
            rw [if_neg (lt_irrefl x), if_neg (lt_irrefl x)] at hab
            by_cases hxz : x < z
            · simp [hxz]
            · by_cases hzx : z < x
              · rw [if_neg hxz, if_pos hzx] at hbc
                simp at hbc
              · have hxz' : x = z := le_antisymm (not_lt.mp hzx) (not_lt.mp hxz)
                subst hxz'
                rw [if_neg (lt_irrefl x), if_neg (lt_irrefl x)] at hbc ⊢
                exact ih ys zs hab hbc

theorem charListLt_conn :
    ∀ a b : List Char, charListLt a b = false → charListLt b a = false → a = b := by
  intro a
  induction a with
  | nil =>
    intro b hab _
    cases b with
    | nil => rfl
    | cons y ys => simp [charListLt] at hab
  | cons x xs ih =>
    intro b hab hba
    cases b with
    | nil => simp [charListLt] at hba
    | cons y ys =>
      simp only [charListLt] at hab hba
      by_cases hxy : x < y
      · rw [if_pos hxy] at hab
        simp at hab
      · by_cases hyx : y < x
        · rw [if_pos hyx] at hba
          simp at hba
        · have hxy' : x = y := le_antisymm (not_lt.mp hyx) (not_lt.mp hxy)
          subst hxy'
          rw [if_neg (lt_irrefl x), if_neg (lt_irrefl x)] at hab hba
          rw [ih ys hab hba]

theorem strLt_irrefl (a : String) : strLt a a = false :=
  charListLt_irrefl a.toList

theorem strLt_trans {a b c : String} (hab : strLt a b = true)
    (hbc : strLt b c = true) : strLt a c = true :=
  charListLt_trans _ _ _ hab hbc

theorem strLt_conn {a b : String} (hab : strLt a b = false)
    (hba : strLt b a = false) : a = b := by
  have h := charListLt_conn _ _ hab hba
  cases a
  cases b
  simpa [String.toList] using congrArg String.mk h

theorem pathLt_irrefl : ∀ p : List String, pathLt p p = false := by
  intro p
  induction p with
  | nil => rfl
  | cons a as ih => simp [pathLt, ih]

theorem pathLt_trans :
    ∀ a b c : List String, pathLt a b = true → pathLt b c = true →
      pathLt a c = true := by
  intro a
  induction a with
  | nil =>
    intro b c hab hbc
    cases b with
    | nil => simp [pathLt] at hab
    | cons y ys =>
      cases c with
      | nil => simp [pathLt] at hbc
      | cons z zs => rfl
  | cons x xs ih =>
    intro b c hab hbc
    cases b with
    | nil => simp [pathLt] at hab
    | cons y ys =>
      cases c with
      | nil => simp [pathLt] at hbc
      | cons z zs =>
        simp only [pathLt] at hab hbc ⊢
        by_cases hxy : x = y
        · subst hxy
          rw [if_pos rfl] at hab
          by_cases hxz : x = z
          · subst hxz
            rw [if_pos rfl] at hbc ⊢
            exact ih ys zs hab hbc
          · rw [if_neg hxz] at hbc ⊢
            exact hbc
        · rw [if_neg hxy] at hab
          by_cases hyz : y = z
          · subst hyz
            rw [if_neg hxy]
            exact hab
          · rw [if_neg hyz] at hbc
            by_cases hxz : x = z
            · subst hxz
              exfalso
              have h1 : strLt x x = true := strLt_trans hab hbc
              rw [strLt_irrefl] at h1
              exact absurd h1 (by simp)
            · rw [if_neg hxz]
              exact strLt_trans hab hbc

theorem pathLt_conn :
    ∀ a b : List String, pathLt a b = false → pathLt b a = false → a = b := by
  intro a
  induction a with
  | nil =>
    intro b hab _
    cases b with
    | nil => rfl
    | cons y ys => simp [pathLt] at hab
  | cons x xs ih =>
    intro b hab hba
    cases b with
    | nil => simp [pathLt] at hba
    | cons y ys =>
      simp only [pathLt] at hab hba
      by_cases hxy : x = y
      · subst hxy
        rw [if_pos rfl] at hab hba
        rw [ih ys hab hba]
      · rw [if_neg hxy] at hab
        rw [if_neg (fun h => hxy h.symm)] at hba
        exact absurd (strLt_conn hab hba) hxy

theorem pathLt_asymm {a b : List String} (h : pathLt a b = true) :
    pathLt b a = false := by
  by_contra hh
  rw [Bool.not_eq_false] at hh
  have := pathLt_trans a b a h hh
  rw [pathLt_irrefl] at this
  exact absurd this (by simp)

/-! ### Sorted duplicate-free path sets -/

theorem mem_insertPath (p : List String) :
    ∀ (l : List (List String)) (x : List String),
      x ∈ insertPath p l ↔ x = p ∨ x ∈ l := by
  intro l
  induction l with
  | nil => intro x; simp [insertPath]
  | cons q qs ih =>
    intro x
    unfold insertPath
    by_cases hpq : p = q
    · subst hpq
      simp only [if_pos rfl]
      constructor
      · intro h; exact Or.inr h
      · rintro (rfl | h)
        · exact List.mem_cons_self _ _
        · exact h
    · rw [if_neg hpq]
      by_cases hlt : pathLt p q = true
      · rw [if_pos hlt]
        simp [or_comm, or_assoc, or_left_comm]
      · rw [if_neg hlt]
        simp only [List.mem_cons, ih]
        tauto

theorem insertPath_pairwise (p : List String) :
    ∀ l : List (List String),
      List.Pairwise (fun a b => pathLt a b = true) l →
      List.Pairwise (fun a b => pathLt a b = true) (insertPath p l) := by
  intro l
  induction l with
  | nil => intro _; simp [insertPath]
  | cons q qs ih =>
    intro hp
    unfold insertPath
    by_cases hpq : p = q
    · rw [if_pos hpq]; exact hp
    · rw [if_neg hpq]
      by_cases hlt : pathLt p q = true
      · rw [if_pos hlt]
        refine List.Pairwise.cons ?_ hp
        intro x hx
        rcases List.mem_cons.mp hx with rfl | hx'
        · exact hlt
        · exact pathLt_trans _ _ _ hlt (List.rel_of_pairwise_cons hp hx')
      · rw [if_neg hlt]
        have hqp : pathLt q p = true := by
          rcases Bool.eq_false_or_eq_true (pathLt q p) with h | h
          · exact h
          · exact absurd (pathLt_conn p q (by simpa using hlt) h) hpq
        refine List.Pairwise.cons ?_ (ih (List.Pairwise.sublist (List.sublist_cons_self q qs) hp))
        intro x hx
        rcases (mem_insertPath p qs x).mp hx with rfl | hx'
        · exact hqp
        · exact List.rel_of_pairwise_cons hp hx'

theorem sortedDedup_pairwise (xs : List (List String)) :
    List.Pairwise (fun a b => pathLt a b = true) (sortedDedup xs) := by
  unfold sortedDedup
  induction xs with
  | nil => simp
  | cons x rest ih => exact insertPath_pairwise x _ ih

theorem mem_sortedDedup (xs : List (List String)) (x : List String) :
    x ∈ sortedDedup xs ↔ x ∈ xs := by
  unfold sortedDedup
  induction xs with
  | nil => simp
  | cons y rest ih =>
    simp only [List.foldr_cons, mem_insertPath, ih, List.mem_cons]

theorem pairwise_eq_of_mem_iff :
    ∀ (l₁ l₂ : List (List String)),
      List.Pairwise (fun a b => pathLt a b = true) l₁ →
      List.Pairwise (fun a b => pathLt a b = true) l₂ →
      (∀ x, x ∈ l₁ ↔ x ∈ l₂) → l₁ = l₂ := by
  intro l₁
  induction l₁ with
  | nil =>
    intro l₂ _ _ hmem
    cases l₂ with
    | nil => rfl
    | cons b bs =>
      exact absurd ((hmem b).mpr (List.mem_cons_self _ _)) (by simp)
  | cons a as ih =>
    intro l₂ h₁ h₂ hmem
    cases l₂ with
    | nil => exact absurd ((hmem a).mp (List.mem_cons_self _ _)) (by simp)
    | cons b bs =>
      have hab : a = b := by
        rcases List.mem_cons.mp ((hmem a).mp (List.mem_cons_self _ _)) with h | h
        · exact h
        · rcases List.mem_cons.mp ((hmem b).mpr (List.mem_cons_self _ _)) with h' | h'
          · exact h'.symm
          · have hba : pathLt b a = true := List.rel_of_pairwise_cons h₂ h
            have hab' : pathLt a b = true := List.rel_of_pairwise_cons h₁ h'
            rw [pathLt_asymm hab'] at hba
            exact absurd hba (by simp)
      subst hab
      have htails : ∀ x, x ∈ as ↔ x ∈ bs := by
        intro x
        constructor
        · intro hx
          have hax : pathLt a x = true := List.rel_of_pairwise_cons h₁ hx
          have hxne : x ≠ a := by
            intro hxa
            subst hxa
            rw [pathLt_irrefl] at hax
            exact absurd hax (by simp)
          rcases List.mem_cons.mp ((hmem x).mp (List.mem_cons_of_mem _ hx)) with h | h
          · exact absurd h hxne
          · exact h
        · intro hx
          have hax : pathLt a x = true := List.rel_of_pairwise_cons h₂ hx
          have hxne : x ≠ a := by
            intro hxa
            subst hxa
            rw [pathLt_irrefl] at hax
            exact absurd hax (by simp)
          rcases List.mem_cons.mp ((hmem x).mpr (List.mem_cons_of_mem _ hx)) with h | h
          · exact absurd h hxne
          · exact h
      rw [ih bs (h₁.sublist (List.sublist_cons_self a as))
        (h₂.sublist (List.sublist_cons_self a bs)) htails]

theorem sortedDedup_mem_congr {xs ys : List (List String)}
    (h : ∀ x, x ∈ xs ↔ x ∈ ys) : sortedDedup xs = sortedDedup ys :=
  pairwise_eq_of_mem_iff _ _ (sortedDedup_pairwise xs) (sortedDedup_pairwise ys)
    fun x => by rw [mem_sortedDedup, mem_sortedDedup]; exact h x

/-! ### Nested suppression -/

theorem filter_nested_suppresses (ds : List DiffEntry) (D : List String)
    (hD : (⟨D, .LeftOnly, some true, none⟩ : DiffEntry) ∈ filter_nested_diffs ds) :
    ∀ e ∈ filter_nested_diffs ds,
      (!(decide (e.path ≠ D) && D.isPrefixOf e.path)) = true := by
  intro e he
  have hDds : (⟨D, .LeftOnly, some true, none⟩ : DiffEntry) ∈ ds :=
    List.mem_of_mem_filter hD
  have hOD : D ∈ (ds.filter fun d =>
      (decide (d.diff_type = .LeftOnly) || decide (d.diff_type = .RightOnly))
        && (d.left_is_dir.getD false || d.right_is_dir.getD false)).map (·.path) := by
    refine List.mem_map.mpr ⟨⟨D, .LeftOnly, some true, none⟩, ?_, rfl⟩
    exact List.mem_filter.mpr ⟨hDds, rfl⟩
  have hpred := List.of_mem_filter he
  rw [Bool.not_eq_eq_eq_not, Bool.not_true, List.any_eq_false] at hpred
  rw [Bool.not_eq_eq_eq_not, Bool.not_true]
  exact Bool.eq_false_iff.mpr (hpred D hOD)

/-- C4: if a directory `D` is classified LeftOnly by `compare_directories`,
no entry whose path is strictly under `D` appears in the result, at any
depth. -/
theorem c4_nested_suppression (l r : FsTree) (D : List String)
    (hD : (⟨D, .LeftOnly, some true, none⟩ : DiffEntry) ∈ compare_directories l r) :
    ((compare_directories l r).all fun e =>
      !(decide (e.path ≠ D) && D.isPrefixOf e.path)) = true := by
  rw [List.all_eq_true]
  exact filter_nested_suppresses _ D hD

/-- C4 witness: a left tree holding only `a/b/c/file.txt` against an empty
right tree yields the single LeftOnly entry `a`, and nothing strictly under
`a` survives at any depth. -/
theorem c4_nested_suppression_witness :
    compare_directories
        ⟨[⟨["a"], true, []⟩, ⟨["a", "b"], true, []⟩, ⟨["a", "b", "c"], true, []⟩,
          ⟨["a", "b", "c", "file.txt"], false, "content".toList⟩]⟩ ⟨[]⟩
      = [⟨["a"], .LeftOnly, some true, none⟩] ∧
    ((compare_directories
        ⟨[⟨["a"], true, []⟩, ⟨["a", "b"], true, []⟩, ⟨["a", "b", "c"], true, []⟩,
          ⟨["a", "b", "c", "file.txt"], false, "content".toList⟩]⟩ ⟨[]⟩).all fun e =>
      !(decide (e.path ≠ ["a"]) && (["a"] : List String).isPrefixOf e.path)) = true :=
  ⟨by decide,
   c4_nested_suppression
     ⟨[⟨["a"], true, []⟩, ⟨["a", "b"], true, []⟩, ⟨["a", "b", "c"], true, []⟩,
       ⟨["a", "b", "c", "file.txt"], false, "content".toList⟩]⟩ ⟨[]⟩ ["a"] (by decide)⟩

/-! ### Ordering of the comparison result -/

theorem entryFor_path {l r : FsTree} {acc : List DiffEntry} {p : List String}
    {e : DiffEntry} (h : entryFor l r acc p = some e) : e.path = p := by
  unfold entryFor at h
  cases hle : existsIn l p <;> cases hre : existsIn r p <;> rw [hle, hre] at h
  · simp at h
  · by_cases hg : (!isDirAt r p || !has_parent_diff acc p .RightOnly) = true
    · rw [if_pos hg] at h
      obtain rfl := Option.some_inj.mp h
      rfl
    · rw [if_neg hg] at h
      simp at h
  · by_cases hg : (!isDirAt l p || !has_parent_diff acc p .LeftOnly) = true
    · rw [if_pos hg] at h
      obtain rfl := Option.some_inj.mp h
      rfl
    · rw [if_neg hg] at h
      simp at h
  · by_cases hm : (isDirAt l p != isDirAt r p) = true
    · rw [if_pos hm] at h
      obtain rfl := Option.some_inj.mp h
      rfl
    · rw [if_neg hm] at h
      by_cases hf : (!isDirAt l p) = true
      · rw [if_pos hf] at h
        by_cases hcf : (!compare_files_at l r p) = true
        · rw [if_pos hcf] at h
          obtain rfl := Option.some_inj.mp h
          rfl
        · rw [if_neg hcf] at h
          simp at h
      · rw [if_neg hf] at h
        simp at h

theorem buildDiffs_paths_sublist (l r : FsTree) :
    ∀ (ps : List (List String)) (acc : List DiffEntry),
      ∃ s, buildDiffs l r ps acc = acc ++ s ∧
        List.Sublist (s.map DiffEntry.path) ps := by
  intro ps
  induction ps with
  | nil =>
    intro acc
    exact ⟨[], by simp [buildDiffs], List.nil_sublist []⟩
  | cons p rest ih =>
    intro acc
    cases he : entryFor l r acc p with
    | none =>
      obtain ⟨s, hs, hsub⟩ := ih acc
      refine ⟨s, ?_, hsub.trans (List.sublist_cons_self p rest)⟩
      simp only [buildDiffs, he]
      exact hs
    | some e =>
      obtain ⟨s, hs, hsub⟩ := ih (acc ++ [e])
      refine ⟨e :: s, ?_, ?_⟩
      · simp only [buildDiffs, he]
        rw [hs, List.append_assoc]
        rfl
      · rw [List.map_cons, entryFor_path he]
        exact List.Sublist.cons₂ p hsub

theorem compare_directories_pairwise (l r : FsTree) :
    List.Pairwise (fun a b => pathLt a.path b.path = true) (compare_directories l r) := by
  unfold compare_directories
  obtain ⟨s, hs, hsub⟩ := buildDiffs_paths_sublist l r
    (sortedDedup (collect_paths l ++ collect_paths r)) []
  rw [List.nil_append] at hs
  show List.Pairwise _
    (filter_nested_diffs (buildDiffs l r (sortedDedup (collect_paths l ++ collect_paths r)) []))
  rw [hs]
  have hp1 : List.Pairwise (fun a b => pathLt a b = true) (s.map DiffEntry.path) :=
    List.Pairwise.sublist hsub (sortedDedup_pairwise _)
  have hp2 : List.Pairwise (fun a b => pathLt a.path b.path = true) s :=
    List.pairwise_map.mp hp1
  exact List.Pairwise.sublist (List.filter_sublist _) hp2

/-- C9: the result of `compare_directories` is strictly sorted in the
lexicographic path order (hence a single fixed deterministic order), each
path occurs at most once, and the collected path set is independent of the
enumeration order of the underlying walk. -/
theorem c9_sorted_unique_order (l r l' : FsTree)
    (hperm : l.entries.Perm l'.entries) :
    List.Pairwise (fun a b => pathLt a.path b.path = true) (compare_directories l r) ∧
    ((compare_directories l r).map (·.path)).Nodup ∧
    collect_paths l = collect_paths l' := by
  refine ⟨compare_directories_pairwise l r, ?_, ?_⟩
  · have hp := compare_directories_pairwise l r
    have hp1 : List.Pairwise (fun a b => pathLt a b = true)
        ((compare_directories l r).map (·.path)) := List.pairwise_map.mpr hp
    refine hp1.imp ?_
    intro a b hlt heq
    rw [heq, pathLt_irrefl] at hlt
    exact absurd hlt (by simp)
  · unfold collect_paths
    refine sortedDedup_mem_congr ?_
    intro x
    constructor
    · intro hx
      rcases List.mem_map.mp hx with ⟨e, he, rfl⟩
      exact List.mem_map_of_mem _ (hperm.mem_iff.mp he)
    · intro hx
      rcases List.mem_map.mp hx with ⟨e, he, rfl⟩
      exact List.mem_map_of_mem _ (hperm.mem_iff.mpr he)

/-- C9 witness: a concrete comparison, and path collection over two
enumeration orders of the same tree. -/
theorem c9_sorted_unique_order_witness :
    List.Pairwise (fun a b => pathLt a.path b.path = true)
      (compare_directories ⟨[⟨["b.txt"], false, "b".toList⟩, ⟨["a.txt"], false, "a".toList⟩]⟩
        ⟨[⟨["a.txt"], false, "A".toList⟩]⟩) ∧
    ((compare_directories ⟨[⟨["b.txt"], false, "b".toList⟩, ⟨["a.txt"], false, "a".toList⟩]⟩
        ⟨[⟨["a.txt"], false, "A".toList⟩]⟩).map (·.path)).Nodup ∧
    collect_paths ⟨[⟨["b.txt"], false, "b".toList⟩, ⟨["a.txt"], false, "a".toList⟩]⟩
      = collect_paths ⟨[⟨["a.txt"], false, "a".toList⟩, ⟨["b.txt"], false, "b".toList⟩]⟩ :=
  c9_sorted_unique_order ⟨[⟨["b.txt"], false, "b".toList⟩, ⟨["a.txt"], false, "a".toList⟩]⟩
    ⟨[⟨["a.txt"], false, "A".toList⟩]⟩
    ⟨[⟨["a.txt"], false, "a".toList⟩, ⟨["b.txt"], false, "b".toList⟩]⟩
    (by decide)

/-! ### Side symmetry -/

theorem swapEntry_path (d : DiffEntry) : (swapEntry d).path = d.path := rfl

theorem has_parent_diff_map_swap_LR (acc : List DiffEntry) (p : List String) :
    has_parent_diff (acc.map swapEntry) p .LeftOnly
      = has_parent_diff acc p .RightOnly := by
  unfold has_parent_diff
  congr 1
  funext anc
  rw [List.any_map]
  congr 1
  funext d
  obtain ⟨pd, dt, lid, rid⟩ := d
  cases dt <;> rfl

theorem has_parent_diff_map_swap_RL (acc : List DiffEntry) (p : List String) :
    has_parent_diff (acc.map swapEntry) p .RightOnly
      = has_parent_diff acc p .LeftOnly := by
  unfold has_parent_diff
  congr 1
  funext anc
  rw [List.any_map]
  congr 1
  funext d
  obtain ⟨pd, dt, lid, rid⟩ := d
  cases dt <;> rfl

theorem entryFor_swap (l r : FsTree) (acc : List DiffEntry) (p : List String) :
    entryFor r l (acc.map swapEntry) p = (entryFor l r acc p).map swapEntry := by
  unfold entryFor
  cases hle : existsIn l p <;> cases hre : existsIn r p
  · rfl
  · rw [has_parent_diff_map_swap_LR]
    by_cases hg : (!isDirAt r p || !has_parent_diff acc p .RightOnly) = true
    · rw [if_pos hg, if_pos hg]
      rfl
    · rw [if_neg hg, if_neg hg]
      rfl
  · rw [has_parent_diff_map_swap_RL]
    by_cases hg : (!isDirAt l p || !has_parent_diff acc p .LeftOnly) = true
    · rw [if_pos hg, if_pos hg]
      rfl
    · rw [if_neg hg, if_neg hg]
      rfl
  · show (if (isDirAt r p != isDirAt l p) = true then
        some (DiffEntry.type_mismatch p (isDirAt r p) (isDirAt l p))
      else
        if (!isDirAt r p) = true then
          if (!compare_files_at r l p) = true then some (DiffEntry.modified p) else none
        else none)
      = Option.map swapEntry
        (if (isDirAt l p != isDirAt r p) = true then
          some (DiffEntry.type_mismatch p (isDirAt l p) (isDirAt r p))
        else
          if (!isDirAt l p) = true then
            if (!compare_files_at l r p) = true then some (DiffEntry.modified p) else none
          else none)
    have hbne : (isDirAt r p != isDirAt l p) = (isDirAt l p != isDirAt r p) := by
      cases isDirAt l p <;> cases isDirAt r p <;> rfl
    rw [hbne]
    by_cases hm : (isDirAt l p != isDirAt r p) = true
    · rw [if_pos hm, if_pos hm]
      rfl
    · rw [if_neg hm, if_neg hm]
      have heq : isDirAt r p = isDirAt l p := by
        cases h1 : isDirAt l p <;> cases h2 : isDirAt r p <;>
          rw [h1, h2] at hm <;> simp at hm
      rw [heq]
      have hcf : compare_files_at r l p = compare_files_at l r p := by
        unfold compare_files_at
        simp [eq_comm]
      rw [hcf]
      by_cases hf : (!isDirAt l p) = true
      · rw [if_pos hf]
        by_cases hc : (!compare_files_at l r p) = true
        · rw [if_pos hc]
          rfl
        · rw [if_neg hc]
          rfl
      · rw [if_neg hf]
        rfl

theorem buildDiffs_swap (l r : FsTree) :
    ∀ (ps : List (List String)) (acc : List DiffEntry),
      buildDiffs r l ps (acc.map swapEntry)
        = (buildDiffs l r ps acc).map swapEntry := by
  intro ps
  induction ps with
  | nil => intro acc; rfl
  | cons p rest ih =>
    intro acc
    simp only [buildDiffs, entryFor_swap l r acc p]
    cases he : entryFor l r acc p with
    | none => exact ih acc
    | some e =>
      simp only [Option.map_some']
      rw [show acc.map swapEntry ++ [swapEntry e] = (acc ++ [e]).map swapEntry by
        rw [List.map_append]; rfl]
      exact ih (acc ++ [e])

theorem filter_nested_swap (ds : List DiffEntry) :
    filter_nested_diffs (ds.map swapEntry)
      = (filter_nested_diffs ds).map swapEntry := by
  unfold filter_nested_diffs
  have hcond : ∀ d : DiffEntry,
      ((decide ((swapEntry d).diff_type = .LeftOnly)
          || decide ((swapEntry d).diff_type = .RightOnly))
        && ((swapEntry d).left_is_dir.getD false || (swapEntry d).right_is_dir.getD false))
      = ((decide (d.diff_type = .LeftOnly) || decide (d.diff_type = .RightOnly))
        && (d.left_is_dir.getD false || d.right_is_dir.getD false)) := by
    intro d
    obtain ⟨pd, dt, lid, rid⟩ := d
    cases dt <;> simp [swapEntry] <;> rw [Bool.or_comm]
  have hdirs : ((ds.map swapEntry).filter fun d =>
      (decide (d.diff_type = .LeftOnly) || decide (d.diff_type = .RightOnly))
        && (d.left_is_dir.getD false || d.right_is_dir.getD false)).map (·.path)
      = (ds.filter fun d =>
      (decide (d.diff_type = .LeftOnly) || decide (d.diff_type = .RightOnly))
        && (d.left_is_dir.getD false || d.right_is_dir.getD false)).map (·.path) := by
    rw [List.filter_map]
    rw [List.map_map]
    have : (fun d => (decide (d.diff_type = DiffType.LeftOnly)
        || decide (d.diff_type = DiffType.RightOnly))
        && (d.left_is_dir.getD false || d.right_is_dir.getD false)) ∘ swapEntry
        = fun d => (decide (d.diff_type = DiffType.LeftOnly)
        || decide (d.diff_type = DiffType.RightOnly))
        && (d.left_is_dir.getD false || d.right_is_dir.getD false) := by
      funext d
      exact hcond d
    rw [this]
    have hpf : ((fun x : DiffEntry => x.path) ∘ swapEntry) = fun x : DiffEntry => x.path := by
      funext d
      rfl
    rw [hpf]
  rw [hdirs]
  rw [List.filter_map]
  rfl

/-- C5, counterexample: for a pair with a file/directory TypeMismatch at
`item`, `compare(B, A)` carries the is-directory flags swapped relative to
`compare(A, B)`, so the transformation that leaves TypeMismatch entries
unchanged does not reproduce it. -/
theorem c5_counterexample :
    compare_directories ⟨[⟨["item"], true, []⟩]⟩ ⟨[⟨["item"], false, "x".toList⟩]⟩
      ≠ (compare_directories ⟨[⟨["item"], false, "x".toList⟩]⟩
          ⟨[⟨["item"], true, []⟩]⟩).map claimSwap := by decide

/-- C5 (amended): `compare_directories r l` equals `compare_directories l r`
with every entry mirrored: LeftOnly turned into RightOnly and vice versa
with the is-directory flag moved to the other side, Modified unchanged, and
TypeMismatch kept with its two is-directory flags exchanged. -/
theorem c5_side_symmetry (l r : FsTree) :
    compare_directories r l = (compare_directories l r).map swapEntry := by
  unfold compare_directories
  have hall : sortedDedup (collect_paths r ++ collect_paths l)
      = sortedDedup (collect_paths l ++ collect_paths r) := by
    refine sortedDedup_mem_congr ?_
    intro x
    rw [List.mem_append, List.mem_append]
    exact or_comm
  show filter_nested_diffs
      (buildDiffs r l (sortedDedup (collect_paths r ++ collect_paths l)) [])
    = (filter_nested_diffs
        (buildDiffs l r (sortedDedup (collect_paths l ++ collect_paths r)) [])).map swapEntry
  have hb := buildDiffs_swap l r (sortedDedup (collect_paths l ++ collect_paths r)) []
  rw [show (([] : List DiffEntry).map swapEntry) = [] from rfl] at hb
  rw [hall, hb, filter_nested_swap]

/-! ## Claims -/

/-- C1, counterexample: for the text `"a\r\n"`, splitting into lines under
the trailing-newline rule and rejoining yields `"a\n"`, not the original
text — the carriage return of a CRLF line ending is lost. -/
theorem c1_crlf_counterexample :
    ¬ (renderLines "a\r\n".toList = "a\r\n".toList) := by decide

/-- C1 (amended): for every text `t` that contains no carriage return
immediately followed by a newline, splitting `t` into lines under the
trailing-newline rule (each line rendered by `format_line_with_newline`
with its trailing newline appended, except the final line when `t` lacked a
trailing newline) and concatenating the lines in order reproduces `t`
exactly, including for the empty string. -/
theorem c1_split_rejoin_roundTrip (t : List Char) (h : noCRLF t = true) :
    renderLines t = t :=
  renderLines_eq t h

/-- C1 witness: the round-trip at the empty text and at a concrete CRLF-free
text without a trailing newline. -/
theorem c1_split_rejoin_roundTrip_witness :
    (noCRLF [] = true ∧ renderLines [] = []) ∧
      (noCRLF "ab\n\ncd".toList = true ∧
        renderLines "ab\n\ncd".toList = "ab\n\ncd".toList) :=
  ⟨⟨by decide, c1_split_rejoin_roundTrip [] (by decide)⟩,
   ⟨by decide, c1_split_rejoin_roundTrip "ab\n\ncd".toList (by decide)⟩⟩

/-- C7: a choices list shorter than the number of non-Equal operations
behaves exactly as the same list padded with `Skip`: every operation index
without a corresponding choice defaults to `Skip`, so the result after any
prefix of decisions is the complete snapshot of just those decisions. -/
theorem c7_missing_choices_default_skip (l r : List Char) (hunks : List Hunk)
    (ops : List DiffOp) (choices : List HunkChoice) (n : Nat) :
    apply_hunk_choices l r hunks ops (choices ++ List.replicate n .skip) =
      apply_hunk_choices l r hunks ops choices := by
  unfold apply_hunk_choices
  rw [lastNonSkip_append_skip,
    processOps_congr _ _ (chooseAt_append_skip choices n) ops 0]

/-- C2, counterexample: for the Modified pair `left = "\n"`, `right = "x"`
(one Replace hunk under the engine contract), choosing Left for every hunk
yields `("", "")`, not `("\n", "\n")`: the joined buffer of the single empty
line is empty, so the trailing newline is not re-appended and the original
left text is not reproduced. -/
theorem c2_all_left_counterexample :
    ValidOps "\n".toList "x".toList [.replace 0 1 0 1] = true ∧
    equalsSound "\n".toList "x".toList [.replace 0 1 0 1] = true ∧
    "\n".toList ≠ "x".toList ∧
    apply_hunk_choices "\n".toList "x".toList [] [.replace 0 1 0 1]
        (List.replicate (countChangeOps [.replace 0 1 0 1]) .left)
      ≠ ("\n".toList, "\n".toList) :=
  ⟨by decide, by decide, by decide, by decide⟩

/-- C2 (amended): for a Modified pair under the engine contract (valid,
covering operations whose Equal spans have equal line tokens), choosing
Left for every hunk yields `newLeftText = newRightText = originalLeftText`
provided the left text contains no CRLF and is not exactly `"\n"`;
symmetrically, choosing Right for every hunk yields both outputs equal to
the original right text under the same provisos on the right text. -/
theorem c2_all_left_all_right_identity (l r : List Char) (hunks : List Hunk)
    (ops : List DiffOp) (hv : ValidOps l r ops = true)
    (hs : equalsSound l r ops = true) (hmod : l ≠ r) :
    (noCRLF l = true → l ≠ ['\n'] →
      apply_hunk_choices l r hunks ops
        (List.replicate (countChangeOps ops) .left) = (l, l)) ∧
    (noCRLF r = true → r ≠ ['\n'] →
      apply_hunk_choices l r hunks ops
        (List.replicate (countChangeOps ops) .right) = (r, r)) := by
  have hn0 : countChangeOps ops ≠ 0 := fun h0 => hmod (eq_of_all_equal hv hs h0)
  constructor
  · intro hnc h1
    have hp := processOps_all_left (rustLines l) (rustLines r) (rustLines r).length
      (List.replicate (countChangeOps ops) .left) ops 0 0 0 hv
      (fun j _ h2 => chooseAt_replicate (by omega))
    have hlns := lastNonSkip_replicate (c := HunkChoice.left) (by simp) hn0
    unfold apply_hunk_choices
    rw [hp, hlns]
    simp only [List.drop_zero]
    rw [finalizeMerged_self l hnc h1]
  · intro hnc h1
    have hp := processOps_all_right l r
      (List.replicate (countChangeOps ops) .right) ops 0 0 0 hv hs
      (fun j _ h2 => chooseAt_replicate (by omega))
    have hlns := lastNonSkip_replicate (c := HunkChoice.right) (by simp) hn0
    unfold apply_hunk_choices
    rw [hp, hlns]
    simp only [List.drop_zero]
    rw [finalizeMerged_self r hnc h1]

/-- C2 witness: the spec's `line2`/`modified` example, all-Left and
all-Right. -/
theorem c2_all_left_all_right_identity_witness :
    apply_hunk_choices "line1\nline2\nline3\n".toList "line1\nmodified\nline3\n".toList []
        [.equal 0 0 1, .replace 1 1 1 1, .equal 2 2 1]
        (List.replicate (countChangeOps [.equal 0 0 1, .replace 1 1 1 1, .equal 2 2 1]) .left)
      = ("line1\nline2\nline3\n".toList, "line1\nline2\nline3\n".toList) ∧
    apply_hunk_choices "line1\nline2\nline3\n".toList "line1\nmodified\nline3\n".toList []
        [.equal 0 0 1, .replace 1 1 1 1, .equal 2 2 1]
        (List.replicate (countChangeOps [.equal 0 0 1, .replace 1 1 1 1, .equal 2 2 1]) .right)
      = ("line1\nmodified\nline3\n".toList, "line1\nmodified\nline3\n".toList) :=
  ⟨(c2_all_left_all_right_identity "line1\nline2\nline3\n".toList
      "line1\nmodified\nline3\n".toList [] [.equal 0 0 1, .replace 1 1 1 1, .equal 2 2 1]
      (by decide) (by decide) (by decide)).1 (by decide) (by decide),
   (c2_all_left_all_right_identity "line1\nline2\nline3\n".toList
      "line1\nmodified\nline3\n".toList [] [.equal 0 0 1, .replace 1 1 1 1, .equal 2 2 1]
      (by decide) (by decide) (by decide)).2 (by decide) (by decide)⟩

/-- C3: `apply_hunk_choices` resolves each output's trailing newline by the
last non-Skip decision of the choices list (Left: both outputs adopt the
left text's trailing-newline presence; Right: the right text's; none: each
output keeps its own), and an output gains a trailing newline exactly when
the resolved flag is true and its joined line buffer is non-empty; on
`left = "hello"`, `right = "hello\n"`: choice Left gives neither output a
trailing newline, Right gives both one, Skip leaves left without and right
with one. -/
theorem c3_trailing_newline_rule (l r : List Char) (hunks : List Hunk)
    (ops : List DiffOp) (choices : List HunkChoice) :
    (apply_hunk_choices l r hunks ops choices =
      (finalizeMerged (processOps (rustLines l) (rustLines r) choices ops 0).1
        (resolvedFlags choices (endsWithNewline l) (endsWithNewline r)).1,
       finalizeMerged (processOps (rustLines l) (rustLines r) choices ops 0).2
        (resolvedFlags choices (endsWithNewline l) (endsWithNewline r)).2)) ∧
    apply_hunk_choices "hello".toList "hello\n".toList [] [.replace 0 1 0 1] [.left]
      = ("hello".toList, "hello".toList) ∧
    apply_hunk_choices "hello".toList "hello\n".toList [] [.replace 0 1 0 1] [.right]
      = ("hello\n".toList, "hello\n".toList) ∧
    apply_hunk_choices "hello".toList "hello\n".toList [] [.replace 0 1 0 1] [.skip]
      = ("hello".toList, "hello\n".toList) := by
  refine ⟨?_, by decide, by decide, by decide⟩
  unfold apply_hunk_choices resolvedFlags
  rw [lastNonSkip_eq_lastDecision]

/-- C6: `extract_hunks` produces exactly one hunk per Delete/Insert/Replace
operation and none per Equal operation, in operation order (the hunk list is
an append-homomorphic image of the operation list, so the count equals the
number of non-Equal operations), and `apply_hunk_choices`'s merge walk
consumes choices at exactly the same operation indices: processing
`xs ++ ys` consumes choices for `ys` starting at index
`i + countChangeOps xs`.  Both functions are deterministic functions of the
two texts and the operation sequence, so a second invocation reproduces the
ordering. -/
theorem c6_hunk_per_operation (l r : List Char) (ctx : Nat)
    (xs ys : List DiffOp) (L R : List (List Char)) (cs : List HunkChoice) (i : Nat) :
    (extract_hunks l r ctx xs).length = countChangeOps xs ∧
    extract_hunks l r ctx (xs ++ ys)
      = extract_hunks l r ctx xs ++ extract_hunks l r ctx ys ∧
    processOps L R cs (xs ++ ys) i =
      ((processOps L R cs xs i).1 ++ (processOps L R cs ys (i + countChangeOps xs)).1,
       (processOps L R cs xs i).2 ++ (processOps L R cs ys (i + countChangeOps xs)).2) :=
  ⟨extract_hunks_length l r ctx xs,
   List.filterMap_append _ _ _,
   processOps_append L R cs xs ys i⟩

/-- C8: `extract_hunks` and `apply_hunk_choices` are total over every
operation sequence, including malformed ones with out-of-range line
indices: every line access is bounds-guarded, so every line they produce is
a genuine (formatted) line of one of the two source texts, and a wildly
out-of-range operation is simply skipped (concretely: a `Delete` at line
100 of a two-line file yields a hunk with empty lines and leaves both
outputs untouched-empty rather than faulting). -/
theorem c8_defensive_bounds (l r : List Char) (ctx : Nat) (ops : List DiffOp)
    (cs : List HunkChoice) :
    ((extract_hunks l r ctx ops).all fun h =>
        h.left_lines.all (isFormattedLineOf l) && h.context_before.all (isFormattedLineOf l)
          && h.context_after.all (isFormattedLineOf l)
          && h.right_lines.all (isFormattedLineOf r)) = true ∧
    ((processOps (rustLines l) (rustLines r) cs ops 0).1.all fun s =>
        decide (s ∈ rustLines l) || decide (s ∈ rustLines r)) = true ∧
    ((processOps (rustLines l) (rustLines r) cs ops 0).2.all fun s =>
        decide (s ∈ rustLines l) || decide (s ∈ rustLines r)) = true ∧
    extract_hunks "a\nb\n".toList "a\nb\n".toList 0 [.delete 100 5 0]
      = [⟨100, 5, 0, 0, [], [], [], []⟩] ∧
    apply_hunk_choices "a\nb\n".toList "a\nb\n".toList [] [.delete 100 5 0] []
      = ([], []) := by
  have hall : ∀ (t : List Char) (a b : Nat),
      (collectFormatted (rustLines t) (endsWithNewline t) a b).all
        (isFormattedLineOf t) = true := by
    intro t a b
    rw [List.all_eq_true]
    intro s hs
    exact isFormattedLineOf_of_mem hs
  refine ⟨?_, ?_, ?_, by decide, by decide⟩
  · rw [List.all_eq_true]
    intro h hmem
    rcases List.mem_filterMap.mp hmem with ⟨op, _, hop⟩
    cases op with
    | equal oi ni len => simp [hunkOfOp] at hop
    | delete oi olen ni =>
      simp only [hunkOfOp] at hop
      obtain rfl := Option.some_inj.mp hop
      simp only [Bool.and_eq_true]
      exact ⟨⟨⟨hall l _ _, hall l _ _⟩, hall l _ _⟩, rfl⟩
    | insert oi ni nlen =>
      simp only [hunkOfOp] at hop
      obtain rfl := Option.some_inj.mp hop
      simp only [Bool.and_eq_true]
      exact ⟨⟨⟨rfl, hall l _ _⟩, hall l _ _⟩, hall r _ _⟩
    | replace oi olen ni nlen =>
      simp only [hunkOfOp] at hop
      obtain rfl := Option.some_inj.mp hop
      simp only [Bool.and_eq_true]
      exact ⟨⟨⟨hall l _ _, hall l _ _⟩, hall l _ _⟩, hall r _ _⟩
  · rw [List.all_eq_true]
    intro s hs
    rcases List.mem_append.mp ((processOps_subset _ _ cs ops 0).1 hs) with h | h
    · simp [h]
    · simp [h]
  · rw [List.all_eq_true]
    intro s hs
    rcases List.mem_append.mp ((processOps_subset _ _ cs ops 0).2 hs) with h | h
    · simp [h]
    · simp [h]

/-- C10: under the engine contract (in-range, covering operations), every
hunk returned by `extract_hunks` has `left_lines.length = left_count` and
`right_lines.length = right_count`; a hunk produced from a Delete operation
has `right_count = 0` with empty `right_lines`, and one produced from an
Insert operation has `left_count = 0` with empty `left_lines`. -/
theorem c10_line_counts (l r : List Char) (ctx : Nat) (ops : List DiffOp)
    (hv : ValidOps l r ops = true) :
    (∀ h ∈ extract_hunks l r ctx ops,
      h.left_lines.length = h.left_count ∧ h.right_lines.length = h.right_count) ∧
    (∀ (oi olen ni : Nat) (h : Hunk),
      hunkOfOp (rustLines l) (rustLines r) (endsWithNewline l) (endsWithNewline r) ctx
        (.delete oi olen ni) = some h → h.right_count = 0 ∧ h.right_lines = []) ∧
    (∀ (oi ni nlen : Nat) (h : Hunk),
      hunkOfOp (rustLines l) (rustLines r) (endsWithNewline l) (endsWithNewline r) ctx
        (.insert oi ni nlen) = some h → h.left_count = 0 ∧ h.left_lines = []) := by
  refine ⟨?_, ?_, ?_⟩
  · intro h hmem
    rcases List.mem_filterMap.mp hmem with ⟨op, hopmem, hop⟩
    have hb := validFrom_bounds (rustLines l).length (rustLines r).length ops 0 0 hv op hopmem
    cases op with
    | equal oi ni len => simp [hunkOfOp] at hop
    | delete oi olen ni =>
      simp only [hunkOfOp] at hop
      obtain rfl := Option.some_inj.mp hop
      rcases hb with ⟨hbl, _⟩
      exact ⟨collectFormatted_length _ _ olen oi hbl, rfl⟩
    | insert oi ni nlen =>
      simp only [hunkOfOp] at hop
      obtain rfl := Option.some_inj.mp hop
      rcases hb with ⟨_, hbr⟩
      exact ⟨rfl, collectFormatted_length _ _ nlen ni hbr⟩
    | replace oi olen ni nlen =>
      simp only [hunkOfOp] at hop
      obtain rfl := Option.some_inj.mp hop
      rcases hb with ⟨hbl, hbr⟩
      exact ⟨collectFormatted_length _ _ olen oi hbl,
             collectFormatted_length _ _ nlen ni hbr⟩
  · intro oi olen ni h hop
    simp only [hunkOfOp] at hop
    obtain rfl := Option.some_inj.mp hop
    exact ⟨rfl, rfl⟩
  · intro oi ni nlen h hop
    simp only [hunkOfOp] at hop
    obtain rfl := Option.some_inj.mp hop
    exact ⟨rfl, rfl⟩

/-- C10 witness: the replace hunk of the spec's `line2`/`modified` example
has matching line counts. -/
theorem c10_line_counts_witness :
    ValidOps "line1\nline2\nline3\n".toList "line1\nmodified\nline3\n".toList
      [.equal 0 0 1, .replace 1 1 1 1, .equal 2 2 1] = true ∧
    ((⟨1, 1, 1, 1, ["line2\n".toList], ["modified\n".toList], ["line1\n".toList],
        ["line3\n".toList]⟩ : Hunk).left_lines.length
          = (⟨1, 1, 1, 1, ["line2\n".toList], ["modified\n".toList], ["line1\n".toList],
              ["line3\n".toList]⟩ : Hunk).left_count ∧
      (⟨1, 1, 1, 1, ["line2\n".toList], ["modified\n".toList], ["line1\n".toList],
        ["line3\n".toList]⟩ : Hunk).right_lines.length
          = (⟨1, 1, 1, 1, ["line2\n".toList], ["modified\n".toList], ["line1\n".toList],
              ["line3\n".toList]⟩ : Hunk).right_count) :=
  ⟨by decide,
   (c10_line_counts "line1\nline2\nline3\n".toList "line1\nmodified\nline3\n".toList 1
     [.equal 0 0 1, .replace 1 1 1 1, .equal 2 2 1] (by decide)).1 _ (by decide)⟩

end Ddmerge
